import Mathlib

/-!
Verification of the polygon tesselator
(`src/modules/core-layers/src/solid-polygon-layer/polygon-tesselator.js`).

The tesselator converts a collection of complex polygons (outer ring plus
hole rings) into flat numeric buffers: positions, triangle indices, colors,
elevations, picking colors, and the next-position buffer used for extrusion.

Embedding choices:
* JavaScript numbers that the verified claims exercise are modelled as `ℚ`;
  a value that can additionally be `NaN`/`undefined` (only the color path
  inspects those) is modelled as `JsNum := Option ℚ` with `none` standing
  for a not-a-number read.
* Typed-array buffers are `List` values.  A write `buf[i] = v` is `List.set`
  (which, like a typed-array write, drops an out-of-range store), and the
  sequential filling loops are expressed with `writeList`.
* The ring-triangulation collaborator (`./polygon`) is external to the
  source under verification; its counting/enumeration interface is either
  modelled from the specification (vertex iteration, vertex counts) or kept
  abstract (`Triangulator` for triangle counts and local surface indices).
* The `fp64` companion buffers hold `Float32` rounding residuals
  (`fp64LowPart`); they are inherently floating point, no claim concerns
  them, and their writes never alias `positions`/`nextPositions`, so they
  are not modelled.  The `fp64` flag is kept in the signatures.
-/

/-- A JavaScript number as observed by the color path: `none` models a
not-a-number (or `undefined`) read, `some q` an actual numeric value. -/
abbrev JsNum := Option ℚ

/-- A vertex is a JS array of coordinates; index 2 may be absent (2D data). -/
abbrev Vertex := List ℚ

/-- A ring: ordered, implicitly closed sequence of vertices. -/
abbrev VertexRing := List Vertex

/-- A normalized complex polygon: its list of rings, outer ring first,
then holes (the canonical ring-set representation of the spec). -/
abbrev Polygon := List VertexRing

/-- Raw polygon input: either a bare ring or an explicit list of rings
(the duck-typed input accepted by the tesselator, as a tagged variant). -/
inductive RawPolygon where
  | simple (ring : VertexRing)
  | complex (rings : List VertexRing)

/-- Modelled from the spec: the Polygon collaborator's `normalize` turns raw
polygon input into the canonical ring-set representation (a bare ring
becomes a one-ring polygon; a ring list is kept as is). -/
def Polygon.normalize : RawPolygon → Polygon
  | .simple ring => [ring]
  | .complex rings => rings

/-- Modelled from the spec: the Polygon collaborator's `getVertexCount`
reports the total number of vertices of a complex polygon; hole rings
contribute their vertices as well. -/
def Polygon.getVertexCount (p : Polygon) : Nat :=
  (p.map List.length).sum

/-- The triangulation part of the Polygon collaborator, kept abstract: it is
an external black box exposing a triangle count and the locally-scoped
triangle-vertex indices of a polygon (spec: `surfaceIndices(p)` has length
`3 × triangleCount(p)`, a contract used as a hypothesis where needed). -/
structure Triangulator where
  getTriangleCount : Polygon → Nat
  getSurfaceIndices : Polygon → List Int

/-- Sequentially write the values `vs` into `target` starting at position
`start`; like a typed array, a write past the end of the buffer is dropped.
This models the `target[i++] = v` filling loops of the source. -/
def writeList : List α → Nat → List α → List α
  | target, _, [] => target
  | target, start, v :: vs => writeList (target.set start v) (start + 1) vs

/-- Modelled from the spec: `fillArray` from the deck.gl core experimental
utilities repeats the `source` pattern `count` times into `target` starting
at `start` (used to replicate a per-polygon value across its vertices). -/
def fillArray (target source : List α) (start count : Nat) : List α :=
  writeList target start (List.replicate count source).flatten

/-- Index integer widths the tesselator can be configured with (the
JavaScript `IndexType` constructor argument). -/
inductive IndexKind where
  | uint8
  | uint16
  | uint32
deriving DecidableEq, BEq

/-- Largest vertex index representable by a configured index width. -/
def IndexKind.maxIndexValue : IndexKind → Nat
  | .uint8 => 255
  | .uint16 => 65535
  | .uint32 => 4294967295

instance : LawfulBEq IndexKind where
  eq_of_beq {a b} h := by
    cases a <;> cases b <;> first | rfl | exact absurd h (by decide)
  rfl {a} := by cases a <;> rfl

/-- Number of values representable by a configured index width
(`maxIndexValue + 1 = 2 ^ width`). -/
def IndexKind.modulus : IndexKind → Nat
  | .uint8 => 256
  | .uint16 => 65536
  | .uint32 => 4294967296

/-- Conversion applied by a store into an unsigned typed array of the
configured width (ECMAScript ToUint8/ToUint16/ToUint32 on an integer
value): the value reduced modulo `2 ^ width`, landing in `[0, 2 ^ width)`. -/
def toIndexValue (IndexType : IndexKind) (x : Int) : Int :=
  x % (IndexType.modulus : Int)

/-- Picking color of object `index` (source line 31): the identifier
`index + 1` encoded in three little-endian bytes. -/
def getPickingColor (index : Nat) : List Nat :=
  [(index + 1) &&& 255, ((index + 1) >>> 8) &&& 255, ((index + 1) >>> 16) &&& 255]

/-- Default color (opaque black), source line 36. -/
def DEFAULT_COLOR : List JsNum := [some 0, some 0, some 0, some 255]

/-- Count the points of a list of complex polygons (source line 118). -/
def getPointCount (polygons : List Polygon) : Nat :=
  polygons.foldl (fun points polygon => points + Polygon.getVertexCount polygon) 0

/-- Count the triangles of a list of complex polygons (source line 123). -/
def getTriangleCount (tri : Triangulator) (polygons : List Polygon) : Nat :=
  polygons.foldl (fun triangles polygon => triangles + tri.getTriangleCount polygon) 0

/-- Offsets of each complex polygon in the combined vertex numbering
(source line 128): a running sum starting at 0, one entry per polygon plus
a final total. -/
def getPolygonOffsets (polygons : List Polygon) : List Nat :=
  List.scanl (· + ·) 0 (polygons.map Polygon.getVertexCount)

/-- The values `index + offsets[polygonIndex]` pushed into the index buffer,
in loop order (source lines 149-154); `polygonIndex` is the running index of
the `forEach`. -/
def indexWrites (tri : Triangulator) (offsets : List Nat) :
    List Polygon → Nat → List Int
  | [], _ => []
  | polygon :: rest, polygonIndex =>
      (tri.getSurfaceIndices polygon).map (fun index => index + (offsets.getD polygonIndex 0 : Int))
        ++ indexWrites tri offsets rest (polygonIndex + 1)

/-- Build the global index buffer (source line 139): allocate a
`new IndexType(3 * triangleCount)` buffer of zeroed entries and fill it
sequentially with the offset local indices of each polygon; each store
into the typed array converts the assigned value modulo the configured
index width (`toIndexValue`). -/
def calculateIndices (tri : Triangulator) (polygons : List Polygon)
    (IndexType : IndexKind := .uint32) : List Int :=
  let indexCount := 3 * getTriangleCount tri polygons
  let offsets := getPolygonOffsets polygons
  writeList (List.replicate indexCount (0 : Int)) 0
    ((indexWrites tri offsets polygons 0).map (toIndexValue IndexType))

/-- Common loop shape of `calculatePickingColors`, `updateColors` and
`updateElevations`: for each polygon, `fillArray` its per-polygon source
value across its vertices at the running offset `i`, advancing `i` by
`(src polygonIndex).length * vertexCount`. -/
def replicateFill (src : Nat → List α) :
    List α → Nat → Nat → List Polygon → List α
  | target, _, _, [] => target
  | target, i, polygonIndex, complexPolygon :: rest =>
      let source := src polygonIndex
      let vertexCount := Polygon.getVertexCount complexPolygon
      replicateFill src (fillArray target source i vertexCount)
        (i + source.length * vertexCount) (polygonIndex + 1) rest

/-- Build the picking-color buffer (source line 261): a zeroed
`pointCount * 3` byte buffer where each polygon's picking color is
replicated across its vertices. -/
def calculatePickingColors (polygons : List Polygon) (pointCount : Nat) : List Nat :=
  replicateFill getPickingColor (List.replicate (pointCount * 3) 0) 0 0 polygons

/-- JavaScript `isNaN` on the values our color model can observe:
`undefined` and `NaN` both test true, numbers test false. -/
def jsIsNaN (v : JsNum) : Bool := v.isNone

/-- JavaScript array store `c[i] = v` on a plain (non-typed) array: inside
the current length it overwrites; at or past the end it extends the array,
reading the skipped holes as `undefined`. -/
def jsSetNum (c : List JsNum) (i : Nat) (v : JsNum) : List JsNum :=
  if i < c.length then c.set i v
  else c ++ List.replicate (i - c.length) none ++ [v]

/-- The color array as the caller's array reads after the alpha fix-up of
`updateColors` (source lines 250-252): when `color[3]` is not-a-number the
source assigns `color[3] = 255` through the reference returned by the
accessor, otherwise the array is untouched. -/
def fixColor (c : List JsNum) : List JsNum :=
  if jsIsNaN (c.getD 3 none) then jsSetNum c 3 (some 255) else c

/-- Round half to even, the rounding used by `Uint8ClampedArray` stores. -/
def roundHalfEven (q : ℚ) : Int :=
  let f := ⌊q⌋
  let r := q - f
  if r < 1 / 2 then f
  else if 1 / 2 < r then f + 1
  else if f % 2 = 0 then f else f + 1

/-- Conversion applied by a `Uint8ClampedArray` store: not-a-number and
`undefined` become 0, values are clamped to `[0, 255]` and rounded half to
even. -/
def clampByte : JsNum → Nat
  | none => 0
  | some q =>
      if q ≤ 0 then 0
      else if 255 ≤ q then 255
      else (roundHalfEven q).toNat

/-- Per-vertex color replication (source line 244): each polygon's accessor
color — after the alpha fix-up — is stored byte-clamped across all of that
polygon's vertices; the buffer is the cache when present, else a fresh
zeroed `pointCount * 4` byte buffer. -/
def updateColors (cache : Option (List Nat)) (polygons : List Polygon)
    (pointCount : Nat) (getColor : Nat → List JsNum) : List Nat :=
  let colors := cache.getD (List.replicate (pointCount * 4) 0)
  replicateFill (fun polygonIndex => (fixColor (getColor polygonIndex)).map clampByte)
    colors 0 0 polygons

/-- Per-vertex elevation replication (source line 230): each polygon's
accessor value is replicated across its vertices. -/
def updateElevations (cache : Option (List ℚ)) (polygons : List Polygon)
    (pointCount : Nat) (getElevation : Nat → ℚ) : List ℚ :=
  let elevations := cache.getD (List.replicate pointCount 0)
  replicateFill (fun polygonIndex => [getElevation polygonIndex]) elevations 0 0 polygons

/-- Mutable state of the position-filling loop (source lines 159-228):
the two buffers, the vertex write cursor `i`, the next-position cursor
`nextI`, and the deferred ring start vertex. -/
structure PosState where
  positions : List ℚ
  nextPositions : List ℚ
  i : Nat
  nextI : Nat
  startVertex : Option (ℚ × ℚ × ℚ)

/-- Flush the deferred ring start vertex into `nextPositions` (source
lines 177-189); `startVertex` is cleared unconditionally. -/
def popStartVertex (s : PosState) : PosState :=
  match s.startVertex with
  | some (x, y, z) =>
      { s with
        nextPositions :=
          ((s.nextPositions.set (s.nextI * 3) x).set (s.nextI * 3 + 1) y).set (s.nextI * 3 + 2) z
        nextI := s.nextI + 1
        startVertex := none }
  | none => { s with startVertex := none }

/-- Save a ring's first vertex for the wrap-around write (source
lines 170-175); only done when extrusion is requested. -/
def pushStartVertex (extruded : Bool) (x y z : ℚ) (s : PosState) : PosState :=
  if extruded then { s with startVertex := some (x, y, z) } else s

/-- The visitor body of `updatePositions` (source lines 192-225): write the
vertex into `positions`; when extruded and not a ring start also write it
into `nextPositions`; at a ring start flush the previous ring's deferred
start vertex and defer this one.  `z` is `vertex[2] || 0`. -/
def visitVertex (extruded : Bool) (s : PosState) (vertex : Vertex)
    (vertexIndex : Nat) : PosState :=
  let x := vertex.getD 0 0
  let y := vertex.getD 1 0
  let z := vertex.getD 2 0
  let s1 := { s with
    positions := ((s.positions.set (s.i * 3) x).set (s.i * 3 + 1) y).set (s.i * 3 + 2) z
    i := s.i + 1 }
  let s2 :=
    if extruded ∧ 0 < vertexIndex then
      { s1 with
        nextPositions :=
          ((s1.nextPositions.set (s1.nextI * 3) x).set (s1.nextI * 3 + 1) y).set
            (s1.nextI * 3 + 2) z
        nextI := s1.nextI + 1 }
    else s1
  if vertexIndex = 0 then pushStartVertex extruded x y z (popStartVertex s2) else s2

/-- Visit the vertices of one ring in order, numbering them from `j`
(the ring-local vertex index passed to the visitor). -/
def visitVertices (extruded : Bool) : PosState → List Vertex → Nat → PosState
  | s, [], _ => s
  | s, vertex :: rest, j => visitVertices extruded (visitVertex extruded s vertex j) rest (j + 1)

/-- Modelled from the spec: the Polygon collaborator's `forEachVertex`
visits the polygon's rings in deterministic order (outer ring first, then
holes) and hands every vertex to the visitor together with its ring-local
index, so index 0 marks each ring start and the next-position buffer wraps
per ring. -/
def visitPolygon (extruded : Bool) (s : PosState) (p : Polygon) : PosState :=
  p.foldl (fun s ring => visitVertices extruded s ring 0) s

/-- The flattening loop of `updatePositions` (source lines 159-228): visit
every polygon, then flush the final deferred ring start. -/
def updatePositionsRun (positions nextPositions : List ℚ)
    (polygons : List Polygon) (extruded : Bool) : PosState :=
  popStartVertex
    (polygons.foldl (visitPolygon extruded)
      { positions := positions, nextPositions := nextPositions,
        i := 0, nextI := 0, startVertex := none })

/-- The attribute cache of the tesselator (`this.attributes`): picking
colors are built at construction, the other buffers are filled on demand
and reused across calls. -/
structure Attributes where
  pickingColors : List Nat
  positions : Option (List ℚ) := none
  nextPositions : Option (List ℚ) := none
  colors : Option (List Nat) := none
  elevations : Option (List ℚ) := none

/-- Engine state of the tesselator (source lines 40-61). -/
structure PolygonTesselator where
  polygons : List Polygon
  pointCount : Nat
  IndexType : IndexKind
  attributes : Attributes

/-- The constructor (source lines 41-61): normalize the polygons, count the
vertices, check the 16-bit capacity limit, then build the picking colors.
The capacity check is literally `IndexType === Uint16Array && pointCount >
65535`. -/
def PolygonTesselator.construct (rawPolygons : List RawPolygon)
    (IndexType : IndexKind) : Except String PolygonTesselator :=
  let polygons := rawPolygons.map Polygon.normalize
  let pointCount := getPointCount polygons
  if IndexType == .uint16 && decide (pointCount > 65535) then
    Except.error "Vertex count exceeds browsers limit"
  else
    Except.ok
      { polygons := polygons
        pointCount := pointCount
        IndexType := IndexType
        attributes := { pickingColors := calculatePickingColors polygons pointCount } }

/-- The `updatePositions` method (source lines 63-77): reuse the cached
buffers when present, else allocate zeroed `pointCount * 3` buffers, then
run the filling loop and store the results. -/
def PolygonTesselator.updatePositions (t : PolygonTesselator)
    (fp64 extruded : Bool) : PolygonTesselator :=
  let positions := t.attributes.positions.getD (List.replicate (t.pointCount * 3) 0)
  let nextPositions := t.attributes.nextPositions.getD (List.replicate (t.pointCount * 3) 0)
  let s := updatePositionsRun positions nextPositions t.polygons extruded
  { t with attributes :=
      { t.attributes with positions := some s.positions, nextPositions := some s.nextPositions } }

/-- The `indices` method (source lines 79-82). -/
def PolygonTesselator.indices (t : PolygonTesselator) (tri : Triangulator) : List Int :=
  calculateIndices tri t.polygons t.IndexType

/-- The `colors` method (source lines 105-110): compute the color buffer
from the cache and store it back. -/
def PolygonTesselator.colors (t : PolygonTesselator)
    (getColor : Nat → List JsNum) : PolygonTesselator :=
  let values := updateColors t.attributes.colors t.polygons t.pointCount getColor
  { t with attributes := { t.attributes with colors := some values } }

/-- The `elevations` method (source lines 98-103). -/
def PolygonTesselator.elevations (t : PolygonTesselator)
    (getElevation : Nat → ℚ) : PolygonTesselator :=
  let values := updateElevations t.attributes.elevations t.polygons t.pointCount getElevation
  { t with attributes := { t.attributes with elevations := some values } }

/-- Engine states reachable from a successful construction through the
state-updating operations. -/
inductive Reachable : PolygonTesselator → Prop
  | constructed (rawPolygons : List RawPolygon) (IndexType : IndexKind)
      (t : PolygonTesselator) :
      PolygonTesselator.construct rawPolygons IndexType = Except.ok t → Reachable t
  | stepPositions (t : PolygonTesselator) (fp64 extruded : Bool) :
      Reachable t → Reachable (t.updatePositions fp64 extruded)
  | stepColors (t : PolygonTesselator) (getColor : Nat → List JsNum) :
      Reachable t → Reachable (t.colors getColor)
  | stepElevations (t : PolygonTesselator) (getElevation : Nat → ℚ) :
      Reachable t → Reachable (t.elevations getElevation)

/-! ### Generic buffer lemmas -/

theorem writeList_nil (target : List α) (start : Nat) :
    writeList target start [] = target := rfl

theorem writeList_cons (target : List α) (start : Nat) (v : α) (vs : List α) :
    writeList target start (v :: vs) = writeList (target.set start v) (start + 1) vs := rfl

theorem length_writeList (vs : List α) (target : List α) (start : Nat) :
    (writeList target start vs).length = target.length := by
  induction vs generalizing target start with
  | nil => rfl
  | cons v vs ih => rw [writeList_cons, ih, List.length_set]

theorem writeList_append (vs ws : List α) (target : List α) (start : Nat) :
    writeList target start (vs ++ ws)
      = writeList (writeList target start vs) (start + vs.length) ws := by
  induction vs generalizing target start with
  | nil => simp [writeList_nil]
  | cons v vs ih =>
      rw [List.cons_append, writeList_cons, writeList_cons, ih, List.length_cons]
      ring_nf

theorem getD_set_ne (l : List α) (i j : Nat) (a d : α) (h : i ≠ j) :
    (l.set i a).getD j d = l.getD j d := by
  rw [List.getD_eq_getElem?_getD, List.getD_eq_getElem?_getD, List.getElem?_set_ne h]

theorem getD_set_self (l : List α) (i : Nat) (a d : α) (h : i < l.length) :
    (l.set i a).getD i d = a := by
  rw [List.getD_eq_getElem?_getD, List.getElem?_set_self h]
  rfl

theorem getD_writeList_lt (vs : List α) (target : List α) (start m : Nat) (d : α)
    (h : m < start) :
    (writeList target start vs).getD m d = target.getD m d := by
  induction vs generalizing target start with
  | nil => rfl
  | cons v vs ih =>
      rw [writeList_cons, ih _ (start + 1) (by omega), getD_set_ne _ _ _ _ _ (by omega)]

theorem getD_writeList (vs : List α) (target : List α) (start n : Nat) (d : α)
    (hn : n < vs.length) (hlen : start + n < target.length) :
    (writeList target start vs).getD (start + n) d = vs.getD n d := by
  induction vs generalizing target start n with
  | nil => simp at hn
  | cons v vs ih =>
      rw [writeList_cons]
      match n with
      | 0 =>
          rw [getD_writeList_lt _ _ _ _ _ (by omega)]
          simpa using getD_set_self target start v d (by omega)
      | Nat.succ n =>
          have := ih (target.set start v) (start + 1) n (by simpa using hn)
            (by rw [List.length_set]; omega)
          have hidx : start + (n + 1) = start + 1 + n := by omega
          rw [hidx, List.getD_cons_succ]
          exact this

theorem getD_writeList_zero (vs : List α) (target : List α) (n : Nat) (d : α)
    (hn : n < vs.length) (hlen : n < target.length) :
    (writeList target 0 vs).getD n d = vs.getD n d := by
  simpa using getD_writeList vs target 0 n d hn (by omega)

theorem writeList_zero_full (vs : List α) (target : List α)
    (h : vs.length = target.length) :
    writeList target 0 vs = vs := by
  apply List.ext_getElem
  · rw [length_writeList]; omega
  · intro i h1 h2
    have h3 : i < target.length := by rw [length_writeList] at h1; omega
    have := getD_writeList_zero vs target i vs[i] (by omega) h3
    rw [List.getD_eq_getElem _ _ h1, List.getD_eq_getElem _ _ h2] at this
    exact this

/-! ### Counting lemmas -/

theorem foldl_add_map (f : α → Nat) (l : List α) (n : Nat) :
    l.foldl (fun a x => a + f x) n = n + (l.map f).sum := by
  induction l generalizing n with
  | nil => simp
  | cons x l ih => simp [ih, Nat.add_assoc]

theorem getPointCount_eq_sum (polygons : List Polygon) :
    getPointCount polygons = (polygons.map Polygon.getVertexCount).sum := by
  simpa using foldl_add_map Polygon.getVertexCount polygons 0

theorem getTriangleCount_eq_sum (tri : Triangulator) (polygons : List Polygon) :
    getTriangleCount tri polygons = (polygons.map tri.getTriangleCount).sum := by
  simpa using foldl_add_map tri.getTriangleCount polygons 0

theorem scanl_add_getD (l : List Nat) (a i : Nat) (h : i ≤ l.length) :
    (List.scanl (· + ·) a l).getD i 0 = a + (l.take i).sum := by
  induction l generalizing a i with
  | nil =>
      match i with
      | 0 => simp
  | cons x l ih =>
      match i with
      | 0 => simp
      | Nat.succ i =>
          rw [List.scanl_cons]
          simp only [List.singleton_append, List.getD_cons_succ, List.take_succ_cons,
            List.sum_cons]
          rw [ih (a + x) i (by simpa using h)]
          omega

theorem getPolygonOffsets_getD (polygons : List Polygon) (i : Nat)
    (h : i ≤ polygons.length) :
    (getPolygonOffsets polygons).getD i 0
      = ((polygons.take i).map Polygon.getVertexCount).sum := by
  rw [getPolygonOffsets, scanl_add_getD _ _ _ (by simpa using h), List.map_take]
  omega

theorem length_getPolygonOffsets (polygons : List Polygon) :
    (getPolygonOffsets polygons).length = polygons.length + 1 := by
  rw [getPolygonOffsets, List.length_scanl, List.length_map]

theorem sum_map_take_succ (f : α → Nat) (l : List α) (i : Nat) (d : α)
    (h : i < l.length) :
    ((l.take (i + 1)).map f).sum = ((l.take i).map f).sum + f (l.getD i d) := by
  rw [List.map_take, List.map_take, List.sum_take_succ (l.map f) i (by simpa using h)]
  congr 1
  rw [List.getElem_map, List.getD_eq_getElem _ _ h]

theorem sum_map_take_le (f : α → Nat) (l : List α) (i : Nat) :
    ((l.take i).map f).sum ≤ (l.map f).sum := by
  conv_rhs => rw [← List.take_append_drop i l]
  rw [List.map_append, List.sum_append]
  omega

/-! ### Closed form of the replication loops -/

/-- Values written by `replicateFill` in loop order: for each polygon the
per-polygon source repeated `vertexCount` times. -/
def replicateContent (src : Nat → List α) : Nat → List Polygon → List α
  | _, [] => []
  | polygonIndex, p :: rest =>
      (List.replicate (Polygon.getVertexCount p) (src polygonIndex)).flatten
        ++ replicateContent src (polygonIndex + 1) rest

theorem length_flatten_replicate (n : Nat) (l : List α) :
    ((List.replicate n l).flatten).length = n * l.length := by
  rw [List.length_flatten, List.map_replicate, List.sum_replicate, smul_eq_mul]

theorem replicateFill_eq_writeList (src : Nat → List α) (ps : List Polygon)
    (target : List α) (i polygonIndex : Nat) :
    replicateFill src target i polygonIndex ps
      = writeList target i (replicateContent src polygonIndex ps) := by
  induction ps generalizing target i polygonIndex with
  | nil => rfl
  | cons p rest ih =>
      rw [replicateFill, replicateContent, ih, fillArray, writeList_append,
        length_flatten_replicate, Nat.mul_comm]

theorem replicateContent_append (src : Nat → List α) (ps qs : List Polygon)
    (polygonIndex : Nat) :
    replicateContent src polygonIndex (ps ++ qs)
      = replicateContent src polygonIndex ps
        ++ replicateContent src (polygonIndex + ps.length) qs := by
  induction ps generalizing polygonIndex with
  | nil => simp [replicateContent]
  | cons p rest ih =>
      rw [List.cons_append, replicateContent, replicateContent, ih, List.append_assoc,
        List.length_cons, show polygonIndex + 1 + rest.length = polygonIndex + (rest.length + 1)
          from by omega]

theorem length_replicateContent (src : Nat → List α) (ps : List Polygon)
    (polygonIndex L : Nat)
    (h : ∀ k, k < ps.length → (src (polygonIndex + k)).length = L) :
    (replicateContent src polygonIndex ps).length
      = L * (ps.map Polygon.getVertexCount).sum := by
  induction ps generalizing polygonIndex with
  | nil => simp [replicateContent]
  | cons p rest ih =>
      rw [replicateContent, List.length_append, length_flatten_replicate,
        ih (polygonIndex + 1) (fun k hk => by
          have := h (k + 1) (by simpa using hk)
          rw [show polygonIndex + 1 + k = polygonIndex + (k + 1) by omega]
          exact this)]
      have := h 0 (by simp)
      simp only [Nat.add_zero] at this
      rw [this, List.map_cons, List.sum_cons]
      ring

theorem getD_flatten_replicate (l : List α) (n t c : Nat) (d : α)
    (ht : t < n) (hc : c < l.length) :
    ((List.replicate n l).flatten).getD (t * l.length + c) d = l.getD c d := by
  induction t generalizing n with
  | zero =>
      match n with
      | Nat.succ n =>
          rw [List.replicate_succ, List.flatten_cons]
          simpa using List.getD_append l (List.replicate n l).flatten d c hc
  | succ t ih =>
      match n with
      | Nat.succ n =>
          rw [List.replicate_succ, List.flatten_cons]
          have hidx : (t + 1) * l.length + c = l.length + (t * l.length + c) := by ring
          rw [hidx, List.getD_append_right _ _ _ _ (by omega)]
          have : l.length + (t * l.length + c) - l.length = t * l.length + c := by omega
          rw [this]
          exact ih n (by omega)

/-! ### Closed form of the position-filling loop -/

/-- The three coordinates a vertex contributes to the position buffer:
`x`, `y`, and `z`-or-0 (JS `vertex[2] || 0`). -/
def coord3 (v : Vertex) : List ℚ := [v.getD 0 0, v.getD 1 0, v.getD 2 0]

/-- The coordinate triple saved by `pushStartVertex`. -/
def vertexTriple (v : Vertex) : ℚ × ℚ × ℚ := (v.getD 0 0, v.getD 1 0, v.getD 2 0)

/-- Flat coordinates of a ring in vertex order. -/
def ringCoords (r : VertexRing) : List ℚ := (r.map coord3).flatten

/-- Flat coordinates of a ring rotated left by one vertex: the content the
next-position buffer holds for that ring. -/
def rotCoords (r : VertexRing) : List ℚ := ringCoords (r.drop 1 ++ r.take 1)

/-- Flat coordinates held by a deferred ring start vertex. -/
def pendCoords : Option (ℚ × ℚ × ℚ) → List ℚ
  | some (x, y, z) => [x, y, z]
  | none => []

/-- Number of vertices a deferred ring start vertex will write. -/
def pendSize : Option (ℚ × ℚ × ℚ) → Nat
  | some _ => 1
  | none => 0

/-- Values written into `nextPositions` while traversing `rings` with a
deferred start vertex `pend`, excluding the final flush. -/
def nextWritesGo : Option (ℚ × ℚ × ℚ) → List VertexRing → List ℚ
  | _, [] => []
  | pend, [] :: rest => nextWritesGo pend rest
  | pend, (v :: vs) :: rest =>
      pendCoords pend ++ (vs.map coord3).flatten ++ nextWritesGo (some (vertexTriple v)) rest

/-- The deferred start vertex left over after traversing `rings`. -/
def pendAfter : Option (ℚ × ℚ × ℚ) → List VertexRing → Option (ℚ × ℚ × ℚ)
  | pend, [] => pend
  | pend, [] :: rest => pendAfter pend rest
  | _, (v :: _) :: rest => pendAfter (some (vertexTriple v)) rest

/-- Number of next-position vertices written while traversing `rings`,
excluding the final flush. -/
def nwCount : Option (ℚ × ℚ × ℚ) → List VertexRing → Nat
  | _, [] => 0
  | pend, [] :: rest => nwCount pend rest
  | pend, (v :: vs) :: rest => pendSize pend + vs.length + nwCount (some (vertexTriple v)) rest

theorem sum_map_const (l : List α) (c : Nat) : (l.map fun _ => c).sum = c * l.length := by
  induction l with
  | nil => simp
  | cons x l ih => simp [ih]; ring

theorem length_coord3 (v : Vertex) : (coord3 v).length = 3 := rfl

theorem length_ringCoords (r : VertexRing) : (ringCoords r).length = 3 * r.length := by
  rw [ringCoords, List.length_flatten, List.map_map]
  have : (List.length ∘ coord3) = fun _ => 3 := by
    funext v
    rfl
  rw [this, sum_map_const]

theorem length_pendCoords (pend : Option (ℚ × ℚ × ℚ)) :
    (pendCoords pend).length = 3 * pendSize pend := by
  cases pend with
  | none => rfl
  | some p =>
      obtain ⟨x, y, z⟩ := p
      rfl

theorem length_nextWritesGo (rings : List VertexRing) (pend : Option (ℚ × ℚ × ℚ)) :
    (nextWritesGo pend rings).length = 3 * nwCount pend rings := by
  induction rings generalizing pend with
  | nil => rfl
  | cons r rest ih =>
      match r with
      | [] => rw [nextWritesGo, nwCount, ih]
      | v :: vs =>
          rw [nextWritesGo, nwCount, List.length_append, List.length_append,
            length_pendCoords, show ((vs.map coord3).flatten.length) = 3 * vs.length
              from length_ringCoords vs, ih]
          ring

theorem visitVertex_mid (s : PosState) (v : Vertex) (j : Nat) (hj : 0 < j) :
    visitVertex true s v j
      = { positions := writeList s.positions (s.i * 3) (coord3 v)
          nextPositions := writeList s.nextPositions (s.nextI * 3) (coord3 v)
          i := s.i + 1
          nextI := s.nextI + 1
          startVertex := s.startVertex } := by
  have hj0 : j ≠ 0 := by omega
  simp [visitVertex, hj, hj0, writeList, coord3]

theorem visitVertex_start (s : PosState) (v : Vertex) :
    visitVertex true s v 0
      = { positions := writeList s.positions (s.i * 3) (coord3 v)
          nextPositions := writeList s.nextPositions (s.nextI * 3) (pendCoords s.startVertex)
          i := s.i + 1
          nextI := s.nextI + pendSize s.startVertex
          startVertex := some (vertexTriple v) } := by
  cases hsv : s.startVertex with
  | none =>
      simp [visitVertex, popStartVertex, pushStartVertex, hsv, writeList, coord3,
        pendCoords, pendSize, vertexTriple]
  | some p =>
      obtain ⟨x, y, z⟩ := p
      simp [visitVertex, popStartVertex, pushStartVertex, hsv, writeList, coord3,
        pendCoords, pendSize, vertexTriple]

theorem visitVertices_tail (vs : List Vertex) (s : PosState) (j : Nat) (hj : 0 < j) :
    visitVertices true s vs j
      = { positions := writeList s.positions (s.i * 3) ((vs.map coord3).flatten)
          nextPositions := writeList s.nextPositions (s.nextI * 3) ((vs.map coord3).flatten)
          i := s.i + vs.length
          nextI := s.nextI + vs.length
          startVertex := s.startVertex } := by
  induction vs generalizing s j with
  | nil =>
      cases s
      simp [visitVertices, writeList]
  | cons v vs ih =>
      rw [visitVertices, visitVertex_mid s v j hj, ih _ (j + 1) (by omega)]
      simp only [List.map_cons, List.flatten_cons]
      rw [writeList_append, writeList_append]
      have h3 : (coord3 v).length = 3 := rfl
      rw [h3]
      have e1 : (s.i + 1) * 3 = s.i * 3 + 3 := by ring
      have e2 : (s.nextI + 1) * 3 = s.nextI * 3 + 3 := by ring
      simp [e1, e2, List.length_cons]
      omega

theorem visitVertices_ring (v : Vertex) (vs : List Vertex) (s : PosState) :
    visitVertices true s (v :: vs) 0
      = { positions := writeList s.positions (s.i * 3) (ringCoords (v :: vs))
          nextPositions := writeList s.nextPositions (s.nextI * 3)
            (pendCoords s.startVertex ++ (vs.map coord3).flatten)
          i := s.i + (v :: vs).length
          nextI := s.nextI + pendSize s.startVertex + vs.length
          startVertex := some (vertexTriple v) } := by
  rw [visitVertices, visitVertex_start s v, visitVertices_tail vs _ 1 (by omega)]
  simp only
  have e1 : (s.i + 1) * 3 = s.i * 3 + (coord3 v).length := by
    rw [length_coord3]; ring
  have e2 : (s.nextI + pendSize s.startVertex) * 3
      = s.nextI * 3 + (pendCoords s.startVertex).length := by
    rw [length_pendCoords]; ring
  rw [e1, e2, ← writeList_append, ← writeList_append]
  have e3 : ringCoords (v :: vs) = coord3 v ++ (vs.map coord3).flatten := by
    rw [ringCoords, List.map_cons, List.flatten_cons]
  rw [e3]
  simp [List.length_cons]
  omega

theorem visitRings_spec (rings : List VertexRing) (s : PosState) :
    rings.foldl (fun s ring => visitVertices true s ring 0) s
      = { positions := writeList s.positions (s.i * 3) ((rings.map ringCoords).flatten)
          nextPositions := writeList s.nextPositions (s.nextI * 3)
            (nextWritesGo s.startVertex rings)
          i := s.i + (rings.map List.length).sum
          nextI := s.nextI + nwCount s.startVertex rings
          startVertex := pendAfter s.startVertex rings } := by
  induction rings generalizing s with
  | nil =>
      cases s
      simp [nextWritesGo, nwCount, pendAfter, writeList]
  | cons r rest ih =>
      match r with
      | [] =>
          rw [List.foldl_cons]
          have h0 : visitVertices true s [] 0 = s := rfl
          rw [h0, ih s]
          simp [nextWritesGo, nwCount, pendAfter, ringCoords]
      | v :: vs =>
          rw [List.foldl_cons, visitVertices_ring v vs s, ih]
          simp only
          have e1 : (s.i + (v :: vs).length) * 3
              = s.i * 3 + (ringCoords (v :: vs)).length := by
            rw [length_ringCoords]; ring
          have e2 : (s.nextI + pendSize s.startVertex + vs.length) * 3
              = s.nextI * 3 + (pendCoords s.startVertex ++ (vs.map coord3).flatten).length := by
            rw [List.length_append, length_pendCoords,
              show ((vs.map coord3).flatten.length) = 3 * vs.length from length_ringCoords vs]
            ring
          rw [e1, e2, ← writeList_append, ← writeList_append]
          have e3 : (((v :: vs) :: rest).map ringCoords).flatten
              = ringCoords (v :: vs) ++ (rest.map ringCoords).flatten := by
            rw [List.map_cons, List.flatten_cons]
          have e4 : nextWritesGo s.startVertex ((v :: vs) :: rest)
              = (pendCoords s.startVertex ++ (vs.map coord3).flatten)
                ++ nextWritesGo (some (vertexTriple v)) rest := by
            rw [nextWritesGo, List.append_assoc]
          have e5 : pendAfter s.startVertex ((v :: vs) :: rest)
              = pendAfter (some (vertexTriple v)) rest := rfl
          have e6 : nwCount s.startVertex ((v :: vs) :: rest)
              = pendSize s.startVertex + vs.length + nwCount (some (vertexTriple v)) rest := rfl
          rw [e3, e4, e5, e6]
          simp [List.length_cons]
          omega

theorem pendCoords_vertexTriple (v : Vertex) :
    pendCoords (some (vertexTriple v)) = coord3 v := rfl

theorem nextWritesGo_total (rings : List VertexRing) (pend : Option (ℚ × ℚ × ℚ)) :
    nextWritesGo pend rings ++ pendCoords (pendAfter pend rings)
      = pendCoords pend ++ (rings.map rotCoords).flatten := by
  induction rings generalizing pend with
  | nil => simp [nextWritesGo, pendAfter]
  | cons r rest ih =>
      match r with
      | [] =>
          rw [nextWritesGo, pendAfter, ih]
          simp [rotCoords, ringCoords]
      | v :: vs =>
          rw [nextWritesGo, pendAfter, List.append_assoc, List.append_assoc, ih]
          have e1 : rotCoords (v :: vs) = (vs.map coord3).flatten ++ coord3 v := by
            rw [rotCoords, ringCoords]
            simp
          rw [List.map_cons, List.flatten_cons, e1, pendCoords_vertexTriple]
          simp

theorem updatePositionsRun_positions_true (positions nextPositions : List ℚ)
    (polygons : List Polygon) :
    (updatePositionsRun positions nextPositions polygons true).positions
      = writeList positions 0 ((polygons.flatten.map ringCoords).flatten) := by
  rw [updatePositionsRun]
  have hf : polygons.foldl (visitPolygon true)
        { positions := positions, nextPositions := nextPositions,
          i := 0, nextI := 0, startVertex := none }
      = polygons.flatten.foldl (fun s ring => visitVertices true s ring 0)
        { positions := positions, nextPositions := nextPositions,
          i := 0, nextI := 0, startVertex := none } := by
    rw [List.foldl_flatten]
    rfl
  rw [hf, visitRings_spec]
  simp only
  cases h : pendAfter none polygons.flatten with
  | none => simp [popStartVertex, h]
  | some p =>
      obtain ⟨x, y, z⟩ := p
      simp [popStartVertex, h]

theorem updatePositionsRun_nextPositions_true (positions nextPositions : List ℚ)
    (polygons : List Polygon) :
    (updatePositionsRun positions nextPositions polygons true).nextPositions
      = writeList nextPositions 0 ((polygons.flatten.map rotCoords).flatten) := by
  rw [updatePositionsRun]
  have hf : polygons.foldl (visitPolygon true)
        { positions := positions, nextPositions := nextPositions,
          i := 0, nextI := 0, startVertex := none }
      = polygons.flatten.foldl (fun s ring => visitVertices true s ring 0)
        { positions := positions, nextPositions := nextPositions,
          i := 0, nextI := 0, startVertex := none } := by
    rw [List.foldl_flatten]
    rfl
  rw [hf, visitRings_spec]
  simp only
  have htot := nextWritesGo_total polygons.flatten none
  rw [pendCoords] at htot
  simp only [List.nil_append] at htot
  cases h : pendAfter none polygons.flatten with
  | none =>
      rw [h] at htot
      rw [pendCoords, List.append_nil] at htot
      simp [popStartVertex, h, htot]
  | some p =>
      obtain ⟨x, y, z⟩ := p
      rw [h] at htot
      simp only [popStartVertex, h]
      have hw : ∀ (b : List ℚ) (k : Nat),
          ((b.set k x).set (k + 1) y).set (k + 2) z = writeList b k [x, y, z] := by
        intro b k
        rfl
      rw [hw]
      rw [show (0 + nwCount none polygons.flatten) * 3
          = 0 * 3 + (nextWritesGo none polygons.flatten).length from by
        rw [length_nextWritesGo]; ring]
      rw [← writeList_append]
      have hp3 : pendCoords (some (x, y, z)) = [x, y, z] := rfl
      rw [hp3] at htot
      rw [htot, show (0 : Nat) * 3 = 0 from rfl]

theorem visitVertex_false (s : PosState) (v : Vertex) (j : Nat)
    (h : s.startVertex = none) :
    visitVertex false s v j
      = { positions := writeList s.positions (s.i * 3) (coord3 v)
          nextPositions := s.nextPositions
          i := s.i + 1
          nextI := s.nextI
          startVertex := none } := by
  by_cases hj : j = 0
  · simp [visitVertex, hj, popStartVertex, pushStartVertex, h, writeList, coord3]
  · simp [visitVertex, hj, writeList, coord3, h]

theorem visitVertices_false (vs : List Vertex) (s : PosState) (j : Nat)
    (h : s.startVertex = none) :
    visitVertices false s vs j
      = { positions := writeList s.positions (s.i * 3) ((vs.map coord3).flatten)
          nextPositions := s.nextPositions
          i := s.i + vs.length
          nextI := s.nextI
          startVertex := none } := by
  induction vs generalizing s j with
  | nil =>
      cases s
      simp only at h
      simp [visitVertices, writeList, h]
  | cons v vs ih =>
      rw [visitVertices, visitVertex_false s v j h, ih _ (j + 1) rfl]
      simp only [List.map_cons, List.flatten_cons]
      have e1 : (s.i + 1) * 3 = s.i * 3 + (coord3 v).length := by
        rw [length_coord3]; ring
      rw [e1, ← writeList_append]
      simp [List.length_cons]
      omega

theorem visitRings_false (rings : List VertexRing) (s : PosState)
    (h : s.startVertex = none) :
    rings.foldl (fun s ring => visitVertices false s ring 0) s
      = { positions := writeList s.positions (s.i * 3) ((rings.map ringCoords).flatten)
          nextPositions := s.nextPositions
          i := s.i + (rings.map List.length).sum
          nextI := s.nextI
          startVertex := none } := by
  induction rings generalizing s with
  | nil =>
      cases s
      simp only at h
      simp [writeList, h]
  | cons r rest ih =>
      rw [List.foldl_cons, visitVertices_false r s 0 h, ih _ rfl]
      simp only
      have e1 : (s.i + r.length) * 3 = s.i * 3 + (ringCoords r).length := by
        rw [length_ringCoords]; ring
      rw [show ((r.map coord3).flatten) = ringCoords r from rfl, e1, ← writeList_append]
      rw [List.map_cons, List.flatten_cons]
      simp
      omega

theorem updatePositionsRun_positions_false (positions nextPositions : List ℚ)
    (polygons : List Polygon) :
    (updatePositionsRun positions nextPositions polygons false).positions
      = writeList positions 0 ((polygons.flatten.map ringCoords).flatten) := by
  rw [updatePositionsRun]
  have hf : polygons.foldl (visitPolygon false)
        { positions := positions, nextPositions := nextPositions,
          i := 0, nextI := 0, startVertex := none }
      = polygons.flatten.foldl (fun s ring => visitVertices false s ring 0)
        { positions := positions, nextPositions := nextPositions,
          i := 0, nextI := 0, startVertex := none } := by
    rw [List.foldl_flatten]
    rfl
  rw [hf, visitRings_false _ _ rfl]
  simp [popStartVertex]

theorem length_rotCoords (r : VertexRing) : (rotCoords r).length = 3 * r.length := by
  rw [rotCoords, length_ringCoords, List.length_append, List.length_drop, List.length_take]
  omega

theorem length_ringCoordsFlatten (rings : List VertexRing) :
    ((rings.map ringCoords).flatten).length = 3 * (rings.map List.length).sum := by
  rw [List.length_flatten, List.map_map]
  have : (List.length ∘ ringCoords) = fun r => 3 * r.length := by
    funext r
    exact length_ringCoords r
  rw [this]
  have := List.sum_map_mul_left rings (fun r => r.length) 3
  simpa using this

theorem length_rotCoordsFlatten (rings : List VertexRing) :
    ((rings.map rotCoords).flatten).length = 3 * (rings.map List.length).sum := by
  rw [List.length_flatten, List.map_map]
  have : (List.length ∘ rotCoords) = fun r => 3 * r.length := by
    funext r
    exact length_rotCoords r
  rw [this]
  have := List.sum_map_mul_left rings (fun r => r.length) 3
  simpa using this

theorem vertexCount_flatten (polygons : List Polygon) :
    (polygons.map Polygon.getVertexCount).sum = (polygons.flatten.map List.length).sum := by
  rw [List.map_flatten, List.sum_flatten, List.map_map]
  rfl

theorem length_flattenMap_of (f : VertexRing → List ℚ)
    (hf : ∀ r, (f r).length = 3 * r.length) (A : List VertexRing) :
    ((A.map f).flatten).length = 3 * (A.map List.length).sum := by
  rw [List.length_flatten, List.map_map]
  have : (List.length ∘ f) = fun r => 3 * r.length := by
    funext r
    exact hf r
  rw [this]
  have := List.sum_map_mul_left A (fun r => r.length) 3
  simpa using this

theorem getD_flatten_segment (f : VertexRing → List ℚ)
    (hf : ∀ r, (f r).length = 3 * r.length)
    (A : List VertexRing) (r : VertexRing) (B : List VertexRing) (m : Nat)
    (hm : m < (f r).length) :
    (((A ++ r :: B).map f).flatten).getD (3 * (A.map List.length).sum + m) 0
      = (f r).getD m 0 := by
  rw [List.map_append, List.map_cons, List.flatten_append, List.flatten_cons]
  rw [show 3 * (A.map List.length).sum = ((A.map f).flatten).length
    from (length_flattenMap_of f hf A).symm]
  rw [List.getD_append_right _ _ _ _ (by omega)]
  rw [show ((A.map f).flatten).length + m - ((A.map f).flatten).length = m from by omega]
  exact List.getD_append _ _ _ _ hm

theorem getD_ringCoords (r : VertexRing) (a c : Nat) (ha : a < r.length) (hc : c < 3) :
    (ringCoords r).getD (3 * a + c) 0 = (coord3 (r.getD a [])).getD c 0 := by
  induction r generalizing a with
  | nil => simp at ha
  | cons v rest ih =>
      match a with
      | 0 =>
          rw [show ringCoords (v :: rest) = coord3 v ++ (rest.map coord3).flatten from by
            rw [ringCoords, List.map_cons, List.flatten_cons]]
          rw [show 3 * 0 + c = c from by omega]
          rw [List.getD_append _ _ _ _ (by rw [length_coord3]; omega)]
          rfl
      | Nat.succ a =>
          rw [show ringCoords (v :: rest) = coord3 v ++ ringCoords rest from by
            rw [ringCoords, ringCoords, List.map_cons, List.flatten_cons]]
          rw [show 3 * (a + 1) + c = (coord3 v).length + (3 * a + c) from by
            rw [length_coord3]; omega]
          rw [List.getD_append_right _ _ _ _ (by omega)]
          rw [show (coord3 v).length + (3 * a + c) - (coord3 v).length = 3 * a + c from by omega]
          rw [List.getD_cons_succ]
          exact ih a (by simpa using ha)

theorem getD_rotCoords_last (r : VertexRing) (c : Nat) (h : 0 < r.length) (hc : c < 3) :
    (rotCoords r).getD (3 * (r.length - 1) + c) 0 = (coord3 (r.getD 0 [])).getD c 0 := by
  match r with
  | v :: rest =>
      rw [rotCoords]
      have hlen : ((v :: rest).drop 1 ++ (v :: rest).take 1).length = rest.length + 1 := by
        simp
      rw [getD_ringCoords _ _ _ (by rw [hlen]; simp) hc]
      congr 2
      show (rest ++ [v]).getD ((v :: rest).length - 1) [] = v
      rw [show (v :: rest).length - 1 = rest.length from by simp]
      rw [List.getD_append_right _ _ _ _ (by omega)]
      simp

theorem getD_rotCoords_mid (r : VertexRing) (j c : Nat) (hj : j < r.length - 1)
    (hc : c < 3) :
    (rotCoords r).getD (3 * j + c) 0 = (coord3 (r.getD (j + 1) [])).getD c 0 := by
  match r with
  | v :: rest =>
      rw [rotCoords]
      have hlen : ((v :: rest).drop 1 ++ (v :: rest).take 1).length = rest.length + 1 := by
        simp
      rw [getD_ringCoords _ _ _ (by rw [hlen]; simp at hj ⊢; omega) hc]
      congr 2
      show (rest ++ [v]).getD j [] = (v :: rest).getD (j + 1) []
      rw [List.getD_cons_succ]
      exact List.getD_append _ _ _ _ (by simp at hj; omega)

/-! ### Engine-level lemmas -/

theorem construct_ok (rawPolygons : List RawPolygon) (IndexType : IndexKind)
    (t : PolygonTesselator)
    (h : PolygonTesselator.construct rawPolygons IndexType = Except.ok t) :
    t.polygons = rawPolygons.map Polygon.normalize
    ∧ t.pointCount = getPointCount (rawPolygons.map Polygon.normalize)
    ∧ t.IndexType = IndexType
    ∧ t.attributes =
        { pickingColors := calculatePickingColors (rawPolygons.map Polygon.normalize)
            (getPointCount (rawPolygons.map Polygon.normalize)) } := by
  simp only [PolygonTesselator.construct] at h
  split at h
  · exact absurd h (by simp)
  · have := Except.ok.inj h
    subst this
    exact ⟨rfl, rfl, rfl, rfl⟩

theorem tesselator_positions_spec (t : PolygonTesselator) (fp64 extruded : Bool)
    (hpos : t.attributes.positions = none)
    (hpc : t.pointCount = (t.polygons.map Polygon.getVertexCount).sum) :
    (t.updatePositions fp64 extruded).attributes.positions
      = some ((t.polygons.flatten.map ringCoords).flatten) := by
  rw [PolygonTesselator.updatePositions]
  simp only [hpos, Option.getD_none]
  have hlen : ((t.polygons.flatten.map ringCoords).flatten).length
      = (List.replicate (t.pointCount * 3) (0 : ℚ)).length := by
    rw [length_ringCoordsFlatten, List.length_replicate, hpc, vertexCount_flatten]
    ring
  cases extruded with
  | true =>
      rw [updatePositionsRun_positions_true, writeList_zero_full _ _ hlen]
  | false =>
      rw [updatePositionsRun_positions_false, writeList_zero_full _ _ hlen]

theorem tesselator_nextPositions_spec (t : PolygonTesselator) (fp64 : Bool)
    (hnext : t.attributes.nextPositions = none)
    (hpc : t.pointCount = (t.polygons.map Polygon.getVertexCount).sum) :
    (t.updatePositions fp64 true).attributes.nextPositions
      = some ((t.polygons.flatten.map rotCoords).flatten) := by
  rw [PolygonTesselator.updatePositions]
  simp only [hnext, Option.getD_none]
  have hlen : ((t.polygons.flatten.map rotCoords).flatten).length
      = (List.replicate (t.pointCount * 3) (0 : ℚ)).length := by
    rw [length_rotCoordsFlatten, List.length_replicate, hpc, vertexCount_flatten]
    ring
  rw [updatePositionsRun_nextPositions_true, writeList_zero_full _ _ hlen]

/-- Global vertex offset of ring `ri` of polygon `pi` in the flattened
vertex numbering: all vertices of earlier polygons plus all vertices of
earlier rings of the same polygon. -/
def ringStart (polygons : List Polygon) (pi ri : Nat) : Nat :=
  (((polygons.take pi).flatten).map List.length).sum
    + (((polygons.getD pi []).take ri).map List.length).sum

/-- The coordinate triple a flat stride-3 buffer holds for vertex slot `n`. -/
def getVertex3 (buf : List ℚ) (n : Nat) : ℚ × ℚ × ℚ :=
  (buf.getD (n * 3) 0, buf.getD (n * 3 + 1) 0, buf.getD (n * 3 + 2) 0)

theorem flatten_ring_decomposition (polygons : List Polygon) (pi ri : Nat)
    (hpi : pi < polygons.length) (hri : ri < (polygons.getD pi []).length) :
    polygons.flatten
      = ((polygons.take pi).flatten ++ (polygons.getD pi []).take ri)
        ++ ((polygons.getD pi []).getD ri [])
          :: ((polygons.getD pi []).drop (ri + 1) ++ (polygons.drop (pi + 1)).flatten) := by
  have h1 : polygons = polygons.take pi
      ++ polygons.getD pi [] :: polygons.drop (pi + 1) := by
    conv_lhs => rw [← List.take_append_drop pi polygons]
    rw [List.drop_eq_getElem_cons hpi, List.getD_eq_getElem polygons [] hpi]
  have h2 : polygons.getD pi [] = (polygons.getD pi []).take ri
      ++ (polygons.getD pi []).getD ri [] :: (polygons.getD pi []).drop (ri + 1) := by
    conv_lhs => rw [← List.take_append_drop ri (polygons.getD pi [])]
    rw [List.drop_eq_getElem_cons hri, List.getD_eq_getElem _ [] hri]
  conv_lhs => rw [h1, List.flatten_append, List.flatten_cons, h2]
  conv_rhs => rw [List.append_assoc]
  congr 1
  rw [List.append_assoc, List.cons_append]

theorem ringStart_eq_sum (polygons : List Polygon) (pi ri : Nat) :
    ringStart polygons pi ri
      = ((((polygons.take pi).flatten ++ (polygons.getD pi []).take ri)).map
          List.length).sum := by
  rw [List.map_append, List.sum_append, ringStart]

theorem list_split_getD (l : List α) (i : Nat) (h : i < l.length) (d : α) :
    l = l.take i ++ l.getD i d :: l.drop (i + 1) := by
  conv_lhs => rw [← List.take_append_drop i l]
  rw [List.drop_eq_getElem_cons h, List.getD_eq_getElem l d h]

theorem and255_eq_mod (x : Nat) : x &&& 255 = x % 256 := by
  apply Nat.eq_of_testBit_eq
  intro i
  rw [Nat.testBit_and]
  rw [show (255 : Nat) = 2 ^ 8 - 1 from by norm_num]
  rw [Nat.testBit_two_pow_sub_one]
  rw [show (256 : Nat) = 2 ^ 8 from by norm_num]
  rw [Nat.testBit_mod_two_pow]
  rw [Bool.and_comm]

theorem pickingColor_decode (index : Nat) (h : index + 1 < 2 ^ 24) :
    (getPickingColor index).getD 0 0 + 256 * (getPickingColor index).getD 1 0
      + 65536 * (getPickingColor index).getD 2 0 = index + 1 := by
  have h0 : (getPickingColor index).getD 0 0 = (index + 1) &&& 255 := rfl
  have h1 : (getPickingColor index).getD 1 0 = ((index + 1) >>> 8) &&& 255 := rfl
  have h2 : (getPickingColor index).getD 2 0 = ((index + 1) >>> 16) &&& 255 := rfl
  rw [h0, h1, h2, and255_eq_mod, and255_eq_mod, and255_eq_mod,
    Nat.shiftRight_eq_div_pow, Nat.shiftRight_eq_div_pow]
  have e8 : (2 : Nat) ^ 8 = 256 := by norm_num
  have e16 : (2 : Nat) ^ 16 = 65536 := by norm_num
  have e24 : (2 : Nat) ^ 24 = 16777216 := by norm_num
  rw [e8, e16]
  rw [e24] at h
  omega

/-! ### Claim theorems -/

/-- C7: for every polygon collection accepted at construction, the engine's
`pointCount` equals exactly the sum of `vertexCount(polygon)` over all its
polygons, and the equality persists through every reachable engine state
(no operation ever changes `polygons` or `pointCount`). -/
theorem pointCount_invariant (t : PolygonTesselator) (h : Reachable t) :
    t.pointCount = (t.polygons.map Polygon.getVertexCount).sum := by
  induction h with
  | constructed rawPolygons IndexType t hok =>
      obtain ⟨hpoly, hpc, _, _⟩ := construct_ok rawPolygons IndexType t hok
      rw [hpc, hpoly, getPointCount_eq_sum]
  | stepPositions t fp64 extruded _ ih => exact ih
  | stepColors t getColor _ ih => exact ih
  | stepElevations t getElevation _ ih => exact ih

/-- A one-triangle collection and the engine built from it, used as a
concrete instance by several witnesses. -/
def exTriangleRaw : List RawPolygon := [RawPolygon.simple [[0, 0], [1, 0], [0, 1]]]

/-- The engine state `construct exTriangleRaw uint32` produces. -/
def exTess : PolygonTesselator :=
  { polygons := [[[[0, 0], [1, 0], [0, 1]]]]
    pointCount := 3
    IndexType := IndexKind.uint32
    attributes := { pickingColors := [1, 0, 0, 1, 0, 0, 1, 0, 0] } }

theorem pointCount_invariant_witness :
    exTess.pointCount = (exTess.polygons.map Polygon.getVertexCount).sum :=
  pointCount_invariant exTess
    (Reachable.constructed exTriangleRaw IndexKind.uint32 exTess (by rfl))

/-- C8: the offset calculator returns `n + 1` prefix sums: entry 0 is 0 and
entry `i + 1` adds polygon `i`'s vertex count to entry `i`. -/
theorem polygonOffsets_prefix_sums (polygons : List Polygon) :
    (getPolygonOffsets polygons).length = polygons.length + 1
    ∧ (getPolygonOffsets polygons).getD 0 0 = 0
    ∧ ∀ i, i < polygons.length →
        (getPolygonOffsets polygons).getD (i + 1) 0
          = (getPolygonOffsets polygons).getD i 0
            + Polygon.getVertexCount (polygons.getD i []) := by
  refine ⟨length_getPolygonOffsets polygons, ?_, ?_⟩
  · rw [getPolygonOffsets_getD polygons 0 (by omega)]
    simp
  · intro i hi
    rw [getPolygonOffsets_getD polygons (i + 1) (by omega),
      getPolygonOffsets_getD polygons i (by omega),
      sum_map_take_succ Polygon.getVertexCount polygons i [] hi]

/-- Two polygons with 3 and 4 vertices (the spec's offsets scenario). -/
def exTwoPolys : List Polygon :=
  [[[[0, 0], [1, 0], [0, 1]]], [[[0, 0], [2, 0], [2, 2], [0, 2]]]]

theorem polygonOffsets_prefix_sums_witness :
    getPolygonOffsets exTwoPolys = [0, 3, 7]
    ∧ (getPolygonOffsets exTwoPolys).getD (0 + 1) 0
        = (getPolygonOffsets exTwoPolys).getD 0 0
          + Polygon.getVertexCount (exTwoPolys.getD 0 []) :=
  ⟨by decide, (polygonOffsets_prefix_sums exTwoPolys).2.2 0 (by decide)⟩

/-- C4 (amended): the constructor's capacity check covers only the 16-bit
index type: construction fails with the capacity error exactly when the
configured type is `Uint16Array` and the vertex count exceeds 65535; for
every other configured width construction succeeds regardless of the vertex
count.  The check runs inside the constructor, hence at every (re)construction
from a polygon collection. -/
theorem capacity_check_uint16_only (rawPolygons : List RawPolygon)
    (IndexType : IndexKind) :
    (∃ e, PolygonTesselator.construct rawPolygons IndexType = Except.error e)
      ↔ IndexType = IndexKind.uint16
        ∧ getPointCount (rawPolygons.map Polygon.normalize) > 65535 := by
  constructor
  · rintro ⟨e, he⟩
    simp only [PolygonTesselator.construct] at he
    split at he
    · rename_i hcond
      rw [Bool.and_eq_true, beq_iff_eq, decide_eq_true_eq] at hcond
      exact hcond
    · exact absurd he (by simp)
  · rintro ⟨hk, hgt⟩
    subst hk
    refine ⟨"Vertex count exceeds browsers limit", ?_⟩
    simp only [PolygonTesselator.construct]
    rw [if_pos]
    rw [Bool.and_eq_true, beq_iff_eq, decide_eq_true_eq]
    exact ⟨rfl, hgt⟩

/-- Vertex count of a collection holding one single-ring polygon. -/
theorem getPointCount_single_ring (r : VertexRing) : getPointCount [[r]] = r.length := by
  rw [getPointCount_eq_sum]
  simp [Polygon.getVertexCount]

/-- A ring with 65536 vertices. -/
def exBigRing : VertexRing := List.replicate 65536 [0, 0]

/-- A single polygon with 65536 vertices: above the 16-bit limit. -/
def exBigRaw : List RawPolygon := [RawPolygon.simple exBigRing]

theorem exBigRing_length : exBigRing.length = 65536 := by
  simp only [exBigRing, List.length_replicate]

theorem exBig_pointCount : getPointCount (exBigRaw.map Polygon.normalize) > 65535 := by
  have h1 : exBigRaw.map Polygon.normalize = [[exBigRing]] := rfl
  rw [h1, getPointCount_single_ring, exBigRing_length]
  norm_num

theorem capacity_check_uint16_only_witness :
    ∃ e, PolygonTesselator.construct exBigRaw IndexKind.uint16 = Except.error e :=
  (capacity_check_uint16_only exBigRaw IndexKind.uint16).mpr ⟨rfl, exBig_pointCount⟩

/-- A ring with `2 ^ 32` vertices. -/
def exHugeRing : VertexRing := List.replicate 4294967296 [0, 0]

/-- A single polygon with `2 ^ 32` vertices: above the 32-bit limit. -/
def exHugeRaw : List RawPolygon := [RawPolygon.simple exHugeRing]

theorem exHugeRing_length : exHugeRing.length = 4294967296 := by
  simp only [exHugeRing, List.length_replicate]

/-- C4 counterexample: a collection whose vertex count exceeds the maximum
representable by the configured 32-bit index width is accepted without any
capacity error — the source's check (line 54) tests only
`IndexType === Uint16Array`, so the claimed every-width enforcement fails. -/
theorem capacity_check_missing_for_uint32 :
    getPointCount (exHugeRaw.map Polygon.normalize)
        > IndexKind.maxIndexValue IndexKind.uint32
    ∧ (PolygonTesselator.construct exHugeRaw IndexKind.uint32).isOk = true := by
  constructor
  · have h1 : exHugeRaw.map Polygon.normalize = [[exHugeRing]] := rfl
    rw [h1, getPointCount_single_ring, exHugeRing_length, IndexKind.maxIndexValue]
    norm_num
  · cases hres : PolygonTesselator.construct exHugeRaw IndexKind.uint32 with
    | ok t => rfl
    | error e =>
        exfalso
        simp only [PolygonTesselator.construct] at hres
        split at hres
        · rename_i hcond
          rw [Bool.and_eq_true] at hcond
          exact absurd hcond.1 (by decide)
        · exact Except.noConfusion hres

/-- Spec-side description of the index buffer (claim C1): for each polygon
in collection order, its local surface indices in collaborator order, each
shifted by the cumulative vertex count of all preceding polygons. -/
def flatIndicesFrom (tri : Triangulator) : Nat → List Polygon → List Int
  | _, [] => []
  | acc, polygon :: rest =>
      (tri.getSurfaceIndices polygon).map (fun index => index + (acc : Int))
        ++ flatIndicesFrom tri (acc + Polygon.getVertexCount polygon) rest

theorem drop_cons_inv (l : List α) (m : Nat) (a : α) (rest : List α)
    (h : l.drop m = a :: rest) :
    m < l.length ∧ l.getD m a = a ∧ l.drop (m + 1) = rest := by
  have hm : m < l.length := by
    by_contra hcon
    rw [List.drop_eq_nil_of_le (by omega)] at h
    exact List.noConfusion h
  refine ⟨hm, ?_, ?_⟩
  · rw [List.getD_eq_getElem l a hm]
    rw [List.drop_eq_getElem_cons hm] at h
    exact (List.cons.inj h).1
  · rw [List.drop_eq_getElem_cons hm] at h
    exact (List.cons.inj h).2

theorem indexWrites_eq_flatIndices (tri : Triangulator) (full : List Polygon) :
    ∀ (rest : List Polygon) (m : Nat), full.drop m = rest →
      indexWrites tri (getPolygonOffsets full) rest m
        = flatIndicesFrom tri (((full.take m).map Polygon.getVertexCount).sum) rest := by
  intro rest
  induction rest with
  | nil => intro m _; rfl
  | cons p rest ih =>
      intro m hdrop
      obtain ⟨hm, hget, hdrop1⟩ := drop_cons_inv full m p rest hdrop
      rw [indexWrites, flatIndicesFrom, ih (m + 1) hdrop1]
      rw [getPolygonOffsets_getD full m (by omega)]
      rw [sum_map_take_succ Polygon.getVertexCount full m p hm, hget]

theorem length_flatIndicesFrom (tri : Triangulator) (ps : List Polygon) (acc : Nat)
    (h : ∀ p ∈ ps, (tri.getSurfaceIndices p).length = 3 * tri.getTriangleCount p) :
    (flatIndicesFrom tri acc ps).length = 3 * (ps.map tri.getTriangleCount).sum := by
  induction ps generalizing acc with
  | nil => simp [flatIndicesFrom]
  | cons p rest ih =>
      rw [flatIndicesFrom, List.length_append, List.length_map,
        h p (by simp), ih _ (fun q hq => h q (by simp [hq])), List.map_cons, List.sum_cons]
      ring

theorem mem_indexWrites (tri : Triangulator) (offsets : List Nat) :
    ∀ (rest : List Polygon) (m : Nat) (v : Int), v ∈ indexWrites tri offsets rest m →
      ∃ j, j < rest.length
        ∧ ∃ ix ∈ tri.getSurfaceIndices (rest.getD j []),
            v = ix + (offsets.getD (m + j) 0 : Int) := by
  intro rest
  induction rest with
  | nil => intro m v hv; exact absurd hv (by simp [indexWrites])
  | cons p rest ih =>
      intro m v hv
      rw [indexWrites, List.mem_append] at hv
      cases hv with
      | inl hv =>
          obtain ⟨ix, hix, hveq⟩ := List.mem_map.mp hv
          refine ⟨0, by simp, ix, by simpa using hix, ?_⟩
          rw [Nat.add_zero]
          omega
      | inr hv =>
          obtain ⟨j, hj, ix, hix, hveq⟩ := ih (m + 1) v hv
          refine ⟨j + 1, by simpa using hj, ix, by simpa using hix, ?_⟩
          rw [show m + (j + 1) = m + 1 + j from by omega]
          exact hveq

/-- Bound on the values assigned by the index-filling loop: with every
local surface index in `[0, vertexCount)`, every assigned value lies in
`[0, pointCount)`. -/
theorem indexWrites_mem_bound (tri : Triangulator) (polygons : List Polygon)
    (hb : ∀ p ∈ polygons, ∀ ix ∈ tri.getSurfaceIndices p,
      0 ≤ ix ∧ ix < (Polygon.getVertexCount p : Int)) :
    ∀ v ∈ indexWrites tri (getPolygonOffsets polygons) polygons 0,
      0 ≤ v ∧ v < (getPointCount polygons : Int) := by
  intro v hv
  obtain ⟨j, hj, ix, hix, hveq⟩ := mem_indexWrites tri (getPolygonOffsets polygons)
    polygons 0 v hv
  have hmem : polygons.getD j [] ∈ polygons := by
    rw [List.getD_eq_getElem polygons [] hj]
    exact List.getElem_mem hj
  obtain ⟨hge, hlt⟩ := hb (polygons.getD j []) hmem ix hix
  have hoff : (getPolygonOffsets polygons).getD (0 + j) 0
      = ((polygons.take j).map Polygon.getVertexCount).sum := by
    rw [show 0 + j = j from by omega]
    exact getPolygonOffsets_getD polygons j (by omega)
  have hsucc : ((polygons.take (j + 1)).map Polygon.getVertexCount).sum
      = ((polygons.take j).map Polygon.getVertexCount).sum
        + Polygon.getVertexCount (polygons.getD j []) :=
    sum_map_take_succ Polygon.getVertexCount polygons j [] hj
  have hle : ((polygons.take (j + 1)).map Polygon.getVertexCount).sum
      ≤ (polygons.map Polygon.getVertexCount).sum :=
    sum_map_take_le Polygon.getVertexCount polygons (j + 1)
  rw [hveq, hoff, getPointCount_eq_sum]
  omega

theorem map_toIndexValue_id (IndexType : IndexKind) (l : List Int)
    (h : ∀ v ∈ l, 0 ≤ v ∧ v < (IndexType.modulus : Int)) :
    l.map (toIndexValue IndexType) = l := by
  induction l with
  | nil => rfl
  | cons v rest ih =>
      rw [List.map_cons, ih (fun w hw => h w (by simp [hw]))]
      obtain ⟨h0, hlt⟩ := h v (by simp)
      rw [toIndexValue, Int.emod_eq_of_lt h0 hlt]

theorem maxIndexValue_add_one (IndexType : IndexKind) :
    IndexType.maxIndexValue + 1 = IndexType.modulus := by
  cases IndexType <;> rfl

/-- C1 (amended): under the collaborator length contract (`surfaceIndices`
has length `3 × triangleCount`), the index buffer built by
`calculateIndices` has length `3 × Σ triangleCount` and holds, for each
polygon in collection order, the polygon's local surface indices in
collaborator order, each shifted by the cumulative vertex count of all
preceding polygons and then reduced modulo the configured index width (the
typed-array store conversion); whenever every local index is in
`[0, vertexCount)` and the collection's `pointCount` fits the configured
width, the reduction is the identity and the stored contents equal
`localIndex + offsets[polygonIndex]` exactly. -/
theorem calculateIndices_layout (tri : Triangulator) (polygons : List Polygon)
    (IndexType : IndexKind)
    (hlen : ∀ p ∈ polygons,
      (tri.getSurfaceIndices p).length = 3 * tri.getTriangleCount p) :
    calculateIndices tri polygons IndexType
        = (flatIndicesFrom tri 0 polygons).map (toIndexValue IndexType)
    ∧ (calculateIndices tri polygons IndexType).length
        = 3 * getTriangleCount tri polygons
    ∧ ((∀ p ∈ polygons, ∀ ix ∈ tri.getSurfaceIndices p,
          0 ≤ ix ∧ ix < (Polygon.getVertexCount p : Int)) →
        getPointCount polygons ≤ IndexType.maxIndexValue + 1 →
        calculateIndices tri polygons IndexType = flatIndicesFrom tri 0 polygons) := by
  have hW : indexWrites tri (getPolygonOffsets polygons) polygons 0
      = flatIndicesFrom tri 0 polygons := by
    have := indexWrites_eq_flatIndices tri polygons polygons 0 rfl
    simpa using this
  have hlenW : (flatIndicesFrom tri 0 polygons).length
      = 3 * getTriangleCount tri polygons := by
    rw [length_flatIndicesFrom tri polygons 0 hlen, getTriangleCount_eq_sum]
  have hmain : calculateIndices tri polygons IndexType
      = (flatIndicesFrom tri 0 polygons).map (toIndexValue IndexType) := by
    simp only [calculateIndices]
    rw [hW]
    exact writeList_zero_full _ _
      (by rw [List.length_map, hlenW, List.length_replicate])
  refine ⟨hmain, ?_, ?_⟩
  · simp only [calculateIndices]
    rw [length_writeList, List.length_replicate]
  · intro hb hcap
    rw [hmain, ← hW]
    apply map_toIndexValue_id
    intro v hv
    obtain ⟨h0, hlt⟩ := indexWrites_mem_bound tri polygons hb v hv
    refine ⟨h0, ?_⟩
    have hmod : (getPointCount polygons : Int) ≤ (IndexType.modulus : Int) := by
      rw [← maxIndexValue_add_one]
      exact_mod_cast hcap
    omega

/-- A fan triangulator meeting the collaborator contract on the witness
inputs: `vertexCount - 2` triangles, indices `[0, t+1, t+2]` per triangle. -/
def exFan : Triangulator :=
  { getTriangleCount := fun p => Polygon.getVertexCount p - 2
    getSurfaceIndices := fun p =>
      ((List.range (Polygon.getVertexCount p - 2)).map
        (fun t => [(t : Int), (t : Int) + 1, (t : Int) + 2])).flatten }

theorem calculateIndices_layout_witness :
    (calculateIndices exFan exTwoPolys IndexKind.uint32).length
        = 3 * getTriangleCount exFan exTwoPolys
    ∧ calculateIndices exFan exTwoPolys IndexKind.uint32
        = flatIndicesFrom exFan 0 exTwoPolys :=
  ⟨(calculateIndices_layout exFan exTwoPolys IndexKind.uint32 (by decide)).2.1,
    (calculateIndices_layout exFan exTwoPolys IndexKind.uint32 (by decide)).2.2
      (by decide) (by decide)⟩

/-- A ring with 258 vertices — more vertices than a uint8 index can
address. -/
def ceRing : VertexRing := List.replicate 258 [0, 0]

/-- The raw one-polygon collection over `ceRing`. -/
def ceRaw : List RawPolygon := [RawPolygon.simple ceRing]

/-- The normalized one-polygon collection over `ceRing`. -/
def cePolys : List Polygon := [[ceRing]]

/-- A triangulation collaborator for the counterexample collection: one
triangle whose corners are the last three vertices of the 258-vertex
polygon.  It meets the collaborator contract there: the surface index list
has length `3 × triangleCount` and every local index is in
`[0, vertexCount)`. -/
def ceTri : Triangulator :=
  { getTriangleCount := fun _ => 1
    getSurfaceIndices := fun _ => [255, 256, 257] }

set_option maxRecDepth 4000 in
/-- C1 counterexample: with the uint8 index type over a 258-vertex polygon
— a configuration the constructor accepts, since only the 16-bit type is
checked — the collaborator meets its contract, yet the stored index buffer
is `[255, 0, 1]` where the claim asserts the shifted local indices
`[255, 256, 257]`: the typed-array store wraps each value modulo the
configured index width. -/
theorem calculateIndices_wraps_for_uint8 :
    (∀ p ∈ cePolys, (ceTri.getSurfaceIndices p).length = 3 * ceTri.getTriangleCount p)
    ∧ (∀ p ∈ cePolys, ∀ ix ∈ ceTri.getSurfaceIndices p,
        0 ≤ ix ∧ ix < (Polygon.getVertexCount p : Int))
    ∧ (PolygonTesselator.construct ceRaw IndexKind.uint8).isOk = true
    ∧ flatIndicesFrom ceTri 0 cePolys = [255, 256, 257]
    ∧ calculateIndices ceTri cePolys IndexKind.uint8 = [255, 0, 1] := by
  refine ⟨by decide, by decide, by rfl, by decide, by decide⟩

/-- C2: whenever every local surface index of every polygon is at least 0
and strictly below that polygon's vertex count, every value the indices
operation writes into the global index buffer is at least 0 and strictly
below `pointCount`. -/
theorem indexWrites_bounded (tri : Triangulator) (polygons : List Polygon)
    (hb : ∀ p ∈ polygons, ∀ ix ∈ tri.getSurfaceIndices p,
      0 ≤ ix ∧ ix < (Polygon.getVertexCount p : Int)) :
    ∀ v ∈ indexWrites tri (getPolygonOffsets polygons) polygons 0,
      0 ≤ v ∧ v < (getPointCount polygons : Int) :=
  indexWrites_mem_bound tri polygons hb

theorem indexWrites_bounded_witness :
    0 ≤ (indexWrites exFan (getPolygonOffsets exTwoPolys) exTwoPolys 0).getD 4 0
    ∧ (indexWrites exFan (getPolygonOffsets exTwoPolys) exTwoPolys 0).getD 4 0
        < (getPointCount exTwoPolys : Int) :=
  indexWrites_bounded exFan exTwoPolys (by decide) _ (by decide)

theorem calculatePickingColors_eq (polygons : List Polygon) :
    calculatePickingColors polygons (getPointCount polygons)
      = replicateContent getPickingColor 0 polygons := by
  rw [calculatePickingColors, replicateFill_eq_writeList]
  apply writeList_zero_full
  rw [length_replicateContent getPickingColor polygons 0 3 (fun k _ => rfl),
    List.length_replicate, getPointCount_eq_sum]
  ring

theorem getD_replicateContent_segment (src : Nat → List Nat) (L : Nat)
    (hL : ∀ q, (src q).length = L)
    (polygons : List Polygon) (pIdx v c : Nat)
    (hp : pIdx < polygons.length)
    (hv1 : ((polygons.take pIdx).map Polygon.getVertexCount).sum ≤ v)
    (hv2 : v < ((polygons.take (pIdx + 1)).map Polygon.getVertexCount).sum)
    (hc : c < L) :
    (replicateContent src 0 polygons).getD (v * L + c) 0 = (src pIdx).getD c 0 := by
  have hsplit := list_split_getD polygons pIdx hp []
  have hsucc := sum_map_take_succ Polygon.getVertexCount polygons pIdx [] hp
  set S := ((polygons.take pIdx).map Polygon.getVertexCount).sum with hS
  have hvlt : v - S < Polygon.getVertexCount (polygons.getD pIdx []) := by omega
  conv_lhs => rw [hsplit]
  rw [replicateContent_append]
  have hlen1 : (replicateContent src 0 (polygons.take pIdx)).length = L * S := by
    rw [length_replicateContent src (polygons.take pIdx) 0 L
      (fun k _ => by rw [Nat.zero_add]; exact hL k)]
  have hidx : v * L + c
      = (replicateContent src 0 (polygons.take pIdx)).length + ((v - S) * L + c) := by
    rw [hlen1]
    have hv : v = S + (v - S) := by omega
    calc v * L + c = (S + (v - S)) * L + c := by rw [← hv]
    _ = L * S + ((v - S) * L + c) := by ring
  rw [hidx, List.getD_append_right _ _ _ _ (by omega)]
  rw [show (replicateContent src 0 (polygons.take pIdx)).length + ((v - S) * L + c)
      - (replicateContent src 0 (polygons.take pIdx)).length = (v - S) * L + c from by omega]
  have hlen2 : (polygons.take pIdx).length = pIdx := by
    rw [List.length_take]
    omega
  rw [replicateContent, hlen2, Nat.zero_add]
  rw [List.getD_append _ _ _ _ (by
    rw [length_flatten_replicate, hL pIdx]
    calc (v - S) * L + c < (v - S) * L + L := by omega
    _ = ((v - S) + 1) * L := by ring
    _ ≤ Polygon.getVertexCount (polygons.getD pIdx []) * L := by
        have : v - S + 1 ≤ Polygon.getVertexCount (polygons.getD pIdx []) := by omega
        exact Nat.mul_le_mul_right L this)]
  rw [show (v - S) * L + c = (v - S) * (src pIdx).length + c from by rw [hL pIdx]]
  exact getD_flatten_replicate (src pIdx) _ (v - S) c 0 hvlt (by rw [hL pIdx]; omega)

/-- C5: every vertex of polygon `polygonIndex` (for `polygonIndex` up to
`2^24 - 2`) carries the picking-color triple
`(id & 255, (id >> 8) & 255, (id >> 16) & 255)` with `id = polygonIndex + 1`,
and decoding the three stored bytes as `b0 + 256*b1 + 65536*b2` recovers
`polygonIndex + 1`. -/
theorem pickingColors_encode_decode (polygons : List Polygon) (polygonIndex v : Nat)
    (hp : polygonIndex < polygons.length)
    (hmax : polygonIndex ≤ 2 ^ 24 - 2)
    (hv1 : ((polygons.take polygonIndex).map Polygon.getVertexCount).sum ≤ v)
    (hv2 : v < ((polygons.take (polygonIndex + 1)).map Polygon.getVertexCount).sum) :
    (calculatePickingColors polygons (getPointCount polygons)).getD (v * 3) 0
        = (polygonIndex + 1) &&& 255
    ∧ (calculatePickingColors polygons (getPointCount polygons)).getD (v * 3 + 1) 0
        = ((polygonIndex + 1) >>> 8) &&& 255
    ∧ (calculatePickingColors polygons (getPointCount polygons)).getD (v * 3 + 2) 0
        = ((polygonIndex + 1) >>> 16) &&& 255
    ∧ (calculatePickingColors polygons (getPointCount polygons)).getD (v * 3) 0
        + 256 * (calculatePickingColors polygons (getPointCount polygons)).getD (v * 3 + 1) 0
        + 65536 * (calculatePickingColors polygons (getPointCount polygons)).getD (v * 3 + 2) 0
        = polygonIndex + 1 := by
  have hbyte : ∀ c, c < 3 →
      (calculatePickingColors polygons (getPointCount polygons)).getD (v * 3 + c) 0
        = (getPickingColor polygonIndex).getD c 0 := by
    intro c hc
    rw [calculatePickingColors_eq]
    exact getD_replicateContent_segment getPickingColor 3 (fun _ => rfl)
      polygons polygonIndex v c hp hv1 hv2 hc
  have h0 := hbyte 0 (by omega)
  have h1 := hbyte 1 (by omega)
  have h2 := hbyte 2 (by omega)
  rw [show v * 3 + 0 = v * 3 from by omega] at h0
  have hdec := pickingColor_decode polygonIndex (by
    have h24 : (2 : Nat) ^ 24 = 16777216 := by norm_num
    omega)
  refine ⟨?_, ?_, ?_, ?_⟩
  · rw [h0]; rfl
  · rw [h1]; rfl
  · rw [h2]; rfl
  · rw [h0, h1, h2]
    exact hdec

theorem pickingColors_encode_decode_witness :
    (calculatePickingColors exTwoPolys (getPointCount exTwoPolys)).getD (3 * 3) 0
        = (1 + 1) &&& 255
    ∧ (calculatePickingColors exTwoPolys (getPointCount exTwoPolys)).getD (3 * 3 + 1) 0
        = ((1 + 1) >>> 8) &&& 255
    ∧ (calculatePickingColors exTwoPolys (getPointCount exTwoPolys)).getD (3 * 3 + 2) 0
        = ((1 + 1) >>> 16) &&& 255
    ∧ (calculatePickingColors exTwoPolys (getPointCount exTwoPolys)).getD (3 * 3) 0
        + 256 * (calculatePickingColors exTwoPolys (getPointCount exTwoPolys)).getD (3 * 3 + 1) 0
        + 65536 * (calculatePickingColors exTwoPolys (getPointCount exTwoPolys)).getD (3 * 3 + 2) 0
        = 1 + 1 :=
  pickingColors_encode_decode exTwoPolys 1 3 (by decide) (by decide) (by decide) (by decide)

theorem getD_eq_default_of_le (l : List α) (n : Nat) (d : α) (h : l.length ≤ n) :
    l.getD n d = d := by
  rw [List.getD_eq_getElem?_getD, List.getElem?_eq_none (by omega)]
  rfl

theorem jsSetNum_getD_self (c : List JsNum) (v : JsNum) :
    (jsSetNum c 3 v).getD 3 none = v := by
  rw [jsSetNum]
  split
  · rename_i h
    exact getD_set_self c 3 v none h
  · rename_i h
    have hlen : (c ++ List.replicate (3 - c.length) none).length = 3 := by
      rw [List.length_append, List.length_replicate]
      omega
    rw [List.getD_append_right _ _ _ _ (by omega), hlen]
    simp

theorem jsSetNum_getD_lt (c : List JsNum) (v : JsNum) (j : Nat) (hj : j < 3) :
    (jsSetNum c 3 v).getD j none = c.getD j none := by
  rw [jsSetNum]
  split
  · exact getD_set_ne c 3 j v none (by omega)
  · rename_i h
    have hrep : ∀ m, (List.replicate (3 - c.length) (none : JsNum)).getD m none = none := by
      intro m
      by_cases hm : m < 3 - c.length
      · rw [List.getD_eq_getElem _ _ (by simpa using hm), List.getElem_replicate]
      · exact getD_eq_default_of_le _ _ _ (by rw [List.length_replicate]; omega)
    have hlen : (c ++ List.replicate (3 - c.length) none).length = 3 := by
      rw [List.length_append, List.length_replicate]
      omega
    by_cases hc : j < c.length
    · rw [List.getD_append _ _ _ _ (by rw [hlen]; omega)]
      rw [List.getD_append _ _ _ _ hc]
    · rw [getD_eq_default_of_le c j none (by omega)]
      rw [List.getD_append _ _ _ _ (by rw [hlen]; omega)]
      rw [List.getD_append_right _ _ _ _ (by omega)]
      exact hrep (j - c.length)

theorem fixColor_alpha (c : List JsNum) (h : jsIsNaN (c.getD 3 none) = true) :
    (fixColor c).getD 3 none = some 255 := by
  rw [fixColor, if_pos h]
  exact jsSetNum_getD_self c (some 255)

theorem fixColor_rgb (c : List JsNum) (j : Nat) (hj : j < 3) :
    (fixColor c).getD j none = c.getD j none := by
  rw [fixColor]
  split
  · exact jsSetNum_getD_lt c (some 255) j hj
  · rfl

theorem clampByte_byte (m : Nat) (hm : m ≤ 255) : clampByte (some (m : ℚ)) = m := by
  rw [clampByte]
  by_cases h0 : m = 0
  · subst h0
    norm_num
  · rw [if_neg (by
      intro hcon
      have : (0 : ℚ) < m := by
        exact_mod_cast Nat.pos_of_ne_zero h0
      linarith)]
    by_cases h255 : m = 255
    · subst h255
      norm_num
    · rw [if_neg (by
        intro hcon
        have : (m : ℚ) < 255 := by
          exact_mod_cast (by omega : m < 255)
        linarith)]
      rw [roundHalfEven]
      simp only [Int.floor_natCast]
      rw [if_pos (by
        push_cast
        norm_num)]
      simp

theorem clampByte_255 : clampByte (some 255) = 255 := by
  rw [clampByte]
  norm_num

theorem getD_map_clampByte (l : List JsNum) (n : Nat) (h : n < l.length) :
    (l.map clampByte).getD n 0 = clampByte (l.getD n none) := by
  rw [List.getD_eq_getElem _ _ (by simpa using h), List.getD_eq_getElem _ _ h,
    List.getElem_map]

theorem updateColors_getD (getColor : Nat → List JsNum) (polygons : List Polygon)
    (polygonIndex v j : Nat)
    (hp : polygonIndex < polygons.length)
    (hlen4 : ∀ q, q ≤ polygonIndex → (fixColor (getColor q)).length = 4)
    (hv1 : ((polygons.take polygonIndex).map Polygon.getVertexCount).sum ≤ v)
    (hv2 : v < ((polygons.take (polygonIndex + 1)).map Polygon.getVertexCount).sum)
    (hj : j < 4) :
    (updateColors none polygons (getPointCount polygons) getColor).getD (v * 4 + j) 0
      = clampByte ((fixColor (getColor polygonIndex)).getD j none) := by
  have hsucc := sum_map_take_succ Polygon.getVertexCount polygons polygonIndex [] hp
  have hle := sum_map_take_le Polygon.getVertexCount polygons (polygonIndex + 1)
  set src := fun q => (fixColor (getColor q)).map clampByte with hsrc
  have hsrclen : ∀ q, q ≤ polygonIndex → (src q).length = 4 := by
    intro q hq
    rw [hsrc]
    simp only [List.length_map]
    exact hlen4 q hq
  set S := ((polygons.take polygonIndex).map Polygon.getVertexCount).sum with hS
  set vc := Polygon.getVertexCount (polygons.getD polygonIndex []) with hvc
  have hsplit := list_split_getD polygons polygonIndex hp []
  have hW : replicateContent src 0 polygons
      = replicateContent src 0 (polygons.take polygonIndex)
        ++ ((List.replicate vc (src polygonIndex)).flatten
          ++ replicateContent src (polygonIndex + 1) (polygons.drop (polygonIndex + 1))) := by
    conv_lhs => rw [hsplit]
    rw [replicateContent_append, replicateContent]
    rw [List.length_take, show min polygonIndex polygons.length = polygonIndex from by omega]
    rw [Nat.zero_add]
  have hlen1 : (replicateContent src 0 (polygons.take polygonIndex)).length = 4 * S := by
    rw [length_replicateContent src (polygons.take polygonIndex) 0 4
      (fun k hk => by
        rw [Nat.zero_add]
        exact hsrclen k (by
          rw [List.length_take] at hk
          omega))]
  have hlenmid : ((List.replicate vc (src polygonIndex)).flatten).length = vc * 4 := by
    rw [length_flatten_replicate, hsrclen polygonIndex (by omega)]
  have hidx : v * 4 + j = 4 * S + ((v - S) * 4 + j) := by
    have hv : v = S + (v - S) := by omega
    calc v * 4 + j = (S + (v - S)) * 4 + j := by rw [← hv]
    _ = 4 * S + ((v - S) * 4 + j) := by ring
  simp only [updateColors, Option.getD_none]
  rw [replicateFill_eq_writeList]
  have hWlen : (v * 4 + j) < (replicateContent src 0 polygons).length := by
    rw [hW, List.length_append, hlen1, List.length_append, hlenmid]
    have hvS : v - S < vc := by omega
    omega
  have hideep : (v * 4 + j) < (List.replicate (getPointCount polygons * 4) (0 : Nat)).length := by
    rw [List.length_replicate, getPointCount_eq_sum]
    have : v < (polygons.map Polygon.getVertexCount).sum := by omega
    omega
  rw [getD_writeList_zero _ _ _ _ hWlen hideep]
  rw [hW, hidx, ← hlen1, List.getD_append_right _ _ _ _ (by omega)]
  rw [show (replicateContent src 0 (polygons.take polygonIndex)).length
      + ((v - S) * 4 + j) - (replicateContent src 0 (polygons.take polygonIndex)).length
      = (v - S) * 4 + j from by omega]
  rw [List.getD_append _ _ _ _ (by
    rw [hlenmid]
    have hvS : v - S < vc := by omega
    omega)]
  rw [show (v - S) * 4 + j = (v - S) * (src polygonIndex).length + j from by
    rw [hsrclen polygonIndex (by omega)]]
  rw [getD_flatten_replicate (src polygonIndex) vc (v - S) j 0 (by omega)
    (by rw [hsrclen polygonIndex (by omega)]; omega)]
  rw [hsrc]
  simp only
  exact getD_map_clampByte _ j (by rw [hlen4 polygonIndex (by omega)]; omega)

/-- C9: when the color accessor's alpha component for a polygon reads as
not-a-number, every vertex of that polygon stores alpha 255, while the
first three components are stored exactly as returned (byte values pass
through the clamped store unchanged).  The length hypothesis pins the
stride-4 layout of the polygons up to `polygonIndex`, per the accessor
contract `[r, g, b, a?]`. -/
theorem colors_nan_alpha (getColor : Nat → List JsNum) (polygons : List Polygon)
    (polygonIndex v : Nat)
    (hp : polygonIndex < polygons.length)
    (hlen4 : ∀ q, q ≤ polygonIndex → (fixColor (getColor q)).length = 4)
    (hNaN : jsIsNaN ((getColor polygonIndex).getD 3 none) = true)
    (hv1 : ((polygons.take polygonIndex).map Polygon.getVertexCount).sum ≤ v)
    (hv2 : v < ((polygons.take (polygonIndex + 1)).map Polygon.getVertexCount).sum) :
    (updateColors none polygons (getPointCount polygons) getColor).getD (v * 4 + 3) 0 = 255
    ∧ ∀ j, j < 3 → ∀ m : Nat, m ≤ 255 →
        (getColor polygonIndex).getD j none = some (m : ℚ) →
        (updateColors none polygons (getPointCount polygons) getColor).getD (v * 4 + j) 0
          = m := by
  constructor
  · rw [updateColors_getD getColor polygons polygonIndex v 3 hp hlen4 hv1 hv2 (by omega)]
    rw [fixColor_alpha _ hNaN]
    exact clampByte_255
  · intro j hj m hm hcomp
    rw [updateColors_getD getColor polygons polygonIndex v j hp hlen4 hv1 hv2 (by omega)]
    rw [fixColor_rgb _ j hj, hcomp]
    exact clampByte_byte m hm

/-- An accessor returning a three-component color (alpha absent, so the
JS `isNaN(color[3])` test is true). -/
def exColorAccessor : Nat → List JsNum := fun _ => [some 10, some 20, some 30]

/-- The one-triangle collection used by the color witnesses. -/
def exTriPolys : List Polygon := [[[[0, 0], [1, 0], [0, 1]]]]

theorem colors_nan_alpha_witness :
    (updateColors none exTriPolys (getPointCount exTriPolys) exColorAccessor).getD
        (0 * 4 + 3) 0 = 255
    ∧ (updateColors none exTriPolys (getPointCount exTriPolys) exColorAccessor).getD
        (0 * 4 + 0) 0 = 10 :=
  ⟨(colors_nan_alpha exColorAccessor exTriPolys 0 0 (by decide) (fun q _ => rfl) rfl
      (by decide) (by decide)).1,
    (colors_nan_alpha exColorAccessor exTriPolys 0 0 (by decide) (fun q _ => rfl) rfl
      (by decide) (by decide)).2 0 (by decide) 10 (by decide) (by decide)⟩

/-- C10: when the accessor's alpha reads as not-a-number, `updateColors`
assigns `color[3] = 255` through the very reference the accessor returned
(source lines 250-252), before replicating it.  Modelling the caller-owned
array by explicit state passing, `fixColor` is its post-call state: its
element 3 now reads 255 and the array no longer equals the value the
accessor returned — an externally observable effect on caller-owned data,
distinct from the engine's color buffer. -/
theorem colors_mutates_caller_array (getColor : Nat → List JsNum) (polygonIndex : Nat)
    (h : jsIsNaN ((getColor polygonIndex).getD 3 none) = true) :
    (fixColor (getColor polygonIndex)).getD 3 none = some 255
    ∧ fixColor (getColor polygonIndex) ≠ getColor polygonIndex := by
  refine ⟨fixColor_alpha _ h, ?_⟩
  intro hcon
  have h3 := fixColor_alpha (getColor polygonIndex) h
  rw [hcon] at h3
  rw [jsIsNaN, h3] at h
  simp at h

theorem colors_mutates_caller_array_witness :
    (fixColor (exColorAccessor 0)).getD 3 none = some 255
    ∧ fixColor (exColorAccessor 0) ≠ exColorAccessor 0 :=
  colors_mutates_caller_array exColorAccessor 0 rfl

/-- C6: after `updatePositions` on a freshly constructed engine, the
position buffer holds, for each polygon in collection order, for each ring
in deterministic order (outer ring first, then holes), for each vertex in
ring order, the triple `(x, y, z)` with `z` read as 0 when absent — i.e.
the flattening of `ringCoords` over all rings — and its length is
`pointCount * 3`. -/
theorem positions_buffer_content (rawPolygons : List RawPolygon)
    (IndexType : IndexKind) (t : PolygonTesselator)
    (hC : PolygonTesselator.construct rawPolygons IndexType = Except.ok t)
    (fp64 extruded : Bool) :
    (t.updatePositions fp64 extruded).attributes.positions
      = some ((t.polygons.flatten.map ringCoords).flatten)
    ∧ ((t.polygons.flatten.map ringCoords).flatten).length = t.pointCount * 3 := by
  obtain ⟨hpoly, hpc, _, hattr⟩ := construct_ok rawPolygons IndexType t hC
  have hpos : t.attributes.positions = none := by rw [hattr]
  have hpc2 : t.pointCount = (t.polygons.map Polygon.getVertexCount).sum := by
    rw [hpc, hpoly, getPointCount_eq_sum]
  refine ⟨tesselator_positions_spec t fp64 extruded hpos hpc2, ?_⟩
  rw [length_ringCoordsFlatten, hpc2, vertexCount_flatten]
  ring

theorem positions_buffer_content_witness :
    (exTess.updatePositions false false).attributes.positions
      = some [0, 0, 0, 1, 0, 0, 0, 1, 0]
    ∧ (([0, 0, 0, 1, 0, 0, 0, 1, 0] : List ℚ)).length = exTess.pointCount * 3 :=
  ⟨((positions_buffer_content exTriangleRaw IndexKind.uint32 exTess rfl false false).1).trans
      (by decide),
    by decide⟩

/-- C3: with extrusion enabled, after `updatePositions` on a freshly
constructed engine, every ring wraps in the next-position buffer: writing
`o` for the ring's global vertex offset and `k` for its vertex count, the
next-position entry of the ring's last vertex equals the position of the
ring's first vertex, and for `j < k - 1` the next-position entry at `o + j`
equals the position at `o + j + 1`. -/
theorem nextPositions_ring_wrap (rawPolygons : List RawPolygon)
    (IndexType : IndexKind) (t : PolygonTesselator)
    (hC : PolygonTesselator.construct rawPolygons IndexType = Except.ok t)
    (fp64 : Bool) (pi ri : Nat)
    (hpi : pi < t.polygons.length)
    (hri : ri < (t.polygons.getD pi []).length)
    (hk : 0 < ((t.polygons.getD pi []).getD ri []).length) :
    getVertex3 (((t.updatePositions fp64 true).attributes.nextPositions).getD [])
        (ringStart t.polygons pi ri
          + ((t.polygons.getD pi []).getD ri []).length - 1)
      = getVertex3 (((t.updatePositions fp64 true).attributes.positions).getD [])
        (ringStart t.polygons pi ri)
    ∧ ∀ j, j < ((t.polygons.getD pi []).getD ri []).length - 1 →
        getVertex3 (((t.updatePositions fp64 true).attributes.nextPositions).getD [])
          (ringStart t.polygons pi ri + j)
        = getVertex3 (((t.updatePositions fp64 true).attributes.positions).getD [])
          (ringStart t.polygons pi ri + j + 1) := by
  obtain ⟨hpoly, hpc, _, hattr⟩ := construct_ok rawPolygons IndexType t hC
  have hpos : t.attributes.positions = none := by rw [hattr]
  have hnext : t.attributes.nextPositions = none := by rw [hattr]
  have hpc2 : t.pointCount = (t.polygons.map Polygon.getVertexCount).sum := by
    rw [hpc, hpoly, getPointCount_eq_sum]
  have hposC := tesselator_positions_spec t fp64 true hpos hpc2
  have hnextC := tesselator_nextPositions_spec t fp64 hnext hpc2
  rw [hposC, hnextC]
  simp only [Option.getD_some]
  set P := t.polygons with hP
  set ring := (P.getD pi []).getD ri [] with hring
  set k := ring.length with hkdef
  set o := ringStart P pi ri with ho
  have hdecomp := flatten_ring_decomposition P pi ri hpi hri
  set A := (P.take pi).flatten ++ (P.getD pi []).take ri with hA
  have hAsum : (A.map List.length).sum = o := by
    rw [hA, ho]
    exact (ringStart_eq_sum P pi ri).symm
  have hget : ∀ (f : VertexRing → List ℚ), (∀ r, (f r).length = 3 * r.length) →
      ∀ m, m < (f ring).length →
      ((P.flatten.map f).flatten).getD (3 * o + m) 0 = (f ring).getD m 0 := by
    intro f hf m hm
    rw [hdecomp, ← hAsum]
    exact getD_flatten_segment f hf A ring
      ((P.getD pi []).drop (ri + 1) ++ (P.drop (pi + 1)).flatten) m hm
  have hposVal : ∀ a c, a < k → c < 3 →
      ((P.flatten.map ringCoords).flatten).getD ((o + a) * 3 + c) 0
        = (coord3 (ring.getD a [])).getD c 0 := by
    intro a c ha hc
    rw [show (o + a) * 3 + c = 3 * o + (3 * a + c) from by ring]
    rw [hget ringCoords length_ringCoords (3 * a + c)
      (by rw [length_ringCoords]; omega)]
    exact getD_ringCoords ring a c ha hc
  have hnextLast : ∀ c, c < 3 →
      ((P.flatten.map rotCoords).flatten).getD ((o + (k - 1)) * 3 + c) 0
        = (coord3 (ring.getD 0 [])).getD c 0 := by
    intro c hc
    rw [show (o + (k - 1)) * 3 + c = 3 * o + (3 * (k - 1) + c) from by ring]
    rw [hget rotCoords length_rotCoords (3 * (k - 1) + c)
      (by rw [length_rotCoords]; omega)]
    exact getD_rotCoords_last ring c hk hc
  have hnextMid : ∀ j c, j < k - 1 → c < 3 →
      ((P.flatten.map rotCoords).flatten).getD ((o + j) * 3 + c) 0
        = (coord3 (ring.getD (j + 1) [])).getD c 0 := by
    intro j c hj hc
    rw [show (o + j) * 3 + c = 3 * o + (3 * j + c) from by ring]
    rw [hget rotCoords length_rotCoords (3 * j + c)
      (by rw [length_rotCoords]; omega)]
    exact getD_rotCoords_mid ring j c hj hc
  constructor
  · rw [show o + k - 1 = o + (k - 1) from by omega]
    rw [getVertex3, getVertex3]
    have e0 := hnextLast 0 (by omega)
    have e1 := hnextLast 1 (by omega)
    have e2 := hnextLast 2 (by omega)
    have f0 := hposVal 0 0 (by omega) (by omega)
    have f1 := hposVal 0 1 (by omega) (by omega)
    have f2 := hposVal 0 2 (by omega) (by omega)
    simp only [Nat.add_zero] at e0 f0 f1 f2
    rw [e0, e1, e2, f0, f1, f2]
  · intro j hj
    rw [getVertex3, getVertex3]
    have e0 := hnextMid j 0 hj (by omega)
    have e1 := hnextMid j 1 hj (by omega)
    have e2 := hnextMid j 2 hj (by omega)
    have f0 := hposVal (j + 1) 0 (by omega) (by omega)
    have f1 := hposVal (j + 1) 1 (by omega) (by omega)
    have f2 := hposVal (j + 1) 2 (by omega) (by omega)
    simp only [Nat.add_zero] at e0 f0
    rw [show o + j + 1 = o + (j + 1) from by omega]
    rw [e0, e1, e2, f0, f1, f2]

/-- A square outer ring with a triangular hole. -/
def exHoleRaw : List RawPolygon :=
  [RawPolygon.complex [[[0, 0], [4, 0], [4, 4], [0, 4]], [[1, 1], [2, 1], [1, 2]]]]

/-- The normalized collection of `exHoleRaw`. -/
def exHolePolys : List Polygon := exHoleRaw.map Polygon.normalize

/-- The engine state constructed from `exHoleRaw`. -/
def exHoleTess : PolygonTesselator :=
  { polygons := exHolePolys
    pointCount := getPointCount exHolePolys
    IndexType := IndexKind.uint32
    attributes := { pickingColors := calculatePickingColors exHolePolys (getPointCount exHolePolys) } }

theorem nextPositions_ring_wrap_witness :
    getVertex3 (((exHoleTess.updatePositions false true).attributes.nextPositions).getD [])
        (ringStart exHoleTess.polygons 0 1
          + ((exHoleTess.polygons.getD 0 []).getD 1 []).length - 1)
      = getVertex3 (((exHoleTess.updatePositions false true).attributes.positions).getD [])
        (ringStart exHoleTess.polygons 0 1)
    ∧ getVertex3 (((exHoleTess.updatePositions false true).attributes.nextPositions).getD [])
        (ringStart exHoleTess.polygons 0 1 + 0)
      = getVertex3 (((exHoleTess.updatePositions false true).attributes.positions).getD [])
        (ringStart exHoleTess.polygons 0 1 + 0 + 1) :=
  ⟨(nextPositions_ring_wrap exHoleRaw IndexKind.uint32 exHoleTess (by rfl) false 0 1
      (by decide) (by decide) (by decide)).1,
    (nextPositions_ring_wrap exHoleRaw IndexKind.uint32 exHoleTess (by rfl) false 0 1
      (by decide) (by decide) (by decide)).2 0 (by decide)⟩
